import Mathlib

/-!
Verification of the Recallogue ecosystem's entity-resolution and graph-merge
subsystem, embedded shallowly from the Python sources
`BeltaScrapper/ЛП/entity_normalizer.py`, `BeltaScrapper/ЛП/neo4j_manager.py`
and `ReStoryTeller/neo4j_manager.py`.

Strings are modelled as `List Char`.  Python's `str.lower`/`str.upper` are
modelled with Lean's `Char.toLower`/`Char.toUpper` (basic-latin case mapping,
an under-approximation of Python's full Unicode case tables that agrees on
the ASCII inputs used below), `str.strip` as dropping whitespace from both
ends, and `str.split()` as splitting on whitespace runs.  `float` similarity
ratios are idealised as rationals.
-/

/-- Python strings are modelled as lists of characters. -/
abbrev Str := List Char

/-- Coerce a Lean string literal into the `Str` model. -/
def str (s : String) : Str := s.data

/-- Model of Python `name.lower()`: lowercase every character. -/
def py_lower (s : Str) : Str := s.map Char.toLower

/-- Model of Python `name.strip()`: drop whitespace from both ends. -/
def py_strip (s : Str) : Str :=
  ((s.dropWhile Char.isWhitespace).reverse.dropWhile Char.isWhitespace).reverse

/-- `EntityNameNormalizer.normalize_name` (entity_normalizer.py lines 47-49):
`name.lower().strip()`. -/
def normalize_name (name : Str) : Str := py_strip (py_lower name)

/-- Model of Python `name.split()`: split on runs of whitespace, no empty
tokens.  The accumulator holds the current in-progress word, reversed. -/
def py_split_aux : Str → Str → List Str
  | [], acc => if acc = [] then [] else [acc.reverse]
  | c :: rest, acc =>
    if c.isWhitespace then
      if acc = [] then py_split_aux rest [] else acc.reverse :: py_split_aux rest []
    else py_split_aux rest (c :: acc)

/-- Model of Python `name.split()` with no separator argument. -/
def py_split (s : Str) : List Str := py_split_aux s []

/-- Bool-valued subset test on token lists, modelling Python
`set(t1).issubset(set(t2))`. -/
def token_subset (t1 t2 : List Str) : Bool := t1.all (fun w => t2.contains w)

/-- `EntityNameNormalizer._is_subset_match` (entity_normalizer.py lines
51-66): one token set is a subset of the other and the shorter of the two
names (by character count) is longer than 3 characters. -/
def is_subset_match (name1 name2 : Str) : Bool :=
  let tokens1 := py_split name1
  let tokens2 := py_split name2
  if token_subset tokens1 tokens2 || token_subset tokens2 tokens1 then
    let shorter := if name1.length < name2.length then name1 else name2
    decide (3 < shorter.length)
  else false

/-!
Model of `difflib.SequenceMatcher(None, a, b).ratio()` as used by
`get_similar_entity` (entity_normalizer.py line 98).  The junk machinery is
inactive here: `isjunk` is `None`, and the `autojunk` popularity heuristic
only triggers for sequences of at least 200 characters; this embedding
implements the junk-free algorithm (the dynamic programme over matching
positions, the two non-junk extension loops, and the recursive decomposition
into matching blocks).  Float ratios are idealised as rationals.
-/

/-- One outer-loop iteration (over `i`) of difflib's `find_longest_match`
dynamic programme: compute the new `j2len` function and fold the best-block
update over the matching positions `j` in ascending order. -/
def flm_step (a b : Str) (blo bhi : Nat)
    (st : (Nat × Nat × Nat) × (Nat → Nat)) (i : Nat) :
    (Nat × Nat × Nat) × (Nat → Nat) :=
  let j2len := st.2
  let nj : Nat → Nat := fun j =>
    if blo ≤ j ∧ j < bhi ∧ (a[i]?).isSome ∧ a[i]? = b[j]? then
      (if j = 0 then 0 else j2len (j - 1)) + 1
    else 0
  let js := (List.range bhi).filter
    (fun j => decide (blo ≤ j) && (a[i]?).isSome && decide (a[i]? = b[j]?))
  let best := js.foldl
    (fun acc j =>
      let k := nj j
      if acc.2.2 < k then (i + 1 - k, j + 1 - k, k) else acc)
    st.1
  (best, nj)

/-- difflib's left extension loop: grow the best block leftwards over equal
characters. -/
def extend_left (a b : Str) (alo blo : Nat) : Nat → Nat → Nat → Nat × Nat × Nat
  | 0, bj, bs => (0, bj, bs)
  | bi + 1, bj, bs =>
    if alo ≤ bi ∧ blo < bj ∧ (a[bi]?).isSome ∧ a[bi]? = b[bj - 1]? then
      extend_left a b alo blo bi (bj - 1) (bs + 1)
    else (bi + 1, bj, bs)

/-- difflib's right extension loop: grow the best block rightwards over equal
characters (fuel-bounded; the fuel passed in is always sufficient). -/
def extend_right (a b : Str) (ahi bhi bi bj : Nat) : Nat → Nat → Nat
  | 0, bs => bs
  | fuel + 1, bs =>
    if bi + bs < ahi ∧ bj + bs < bhi ∧ (a[bi + bs]?).isSome ∧ a[bi + bs]? = b[bj + bs]? then
      extend_right a b ahi bhi bi bj fuel (bs + 1)
    else bs

/-- difflib `SequenceMatcher.find_longest_match` over the slices
`a[alo:ahi]`, `b[blo:bhi]` with no junk. -/
def find_longest_match (a b : Str) (alo ahi blo bhi : Nat) : Nat × Nat × Nat :=
  let init : (Nat × Nat × Nat) × (Nat → Nat) := ((alo, blo, 0), fun _ => 0)
  let dp := ((List.range' alo (ahi - alo)).foldl (flm_step a b blo bhi) init).1
  let el := extend_left a b alo blo dp.1 dp.2.1 dp.2.2
  let er := extend_right a b ahi bhi el.1 el.2.1 ahi el.2.2
  (el.1, el.2.1, er)

/-- Total size of the matching blocks of difflib's
`SequenceMatcher.get_matching_blocks`: recursively split around the longest
match (fuel-bounded; the fuel passed in is always sufficient). -/
def matching_size (a b : Str) : Nat → Nat → Nat → Nat → Nat → Nat
  | 0, _, _, _, _ => 0
  | fuel + 1, alo, ahi, blo, bhi =>
    let m := find_longest_match a b alo ahi blo bhi
    if m.2.2 = 0 then 0
    else matching_size a b fuel alo m.1 blo m.2.1
      + m.2.2 + matching_size a b fuel (m.1 + m.2.2) ahi (m.2.1 + m.2.2) bhi

/-- difflib `SequenceMatcher(None, a, b).ratio()`:
`2 * M / (len(a) + len(b))`, and `1.0` when both strings are empty.
Written with `mkRat` so that the value is kernel-computable. -/
def similarity (a b : Str) : ℚ :=
  let total := a.length + b.length
  if total = 0 then 1
  else mkRat (2 * matching_size a b (total + 1) 0 a.length 0 b.length) total

/-!
The Canonical Name Registry (`EntityNameNormalizer`).  The SQLite `entities`
table is modelled as an association list from names to optional descriptions
(unique names by construction of the insert path), and the in-memory
`entity_cache` as a list of names iterated in first-inserted order — the
determinisation of Python's set iteration chosen by the specification
(design note §9: first-inserted-wins tie-break policy).
-/

/-- Default fuzzy threshold, Python `threshold: float = 0.8`. -/
def default_threshold : ℚ := mkRat 4 5

/-- The fuzzy-scan loop body of `get_similar_entity` (entity_normalizer.py
lines 79-101): subset matches return immediately; otherwise the best strict
improvement at or above the threshold is tracked. -/
def similar_loop (nq : Str) (th : ℚ) : List Str → Option Str → ℚ → Option Str
  | [], best, _ => best
  | s :: rest, best, bestR =>
    if is_subset_match nq s then some s
    else
      let r := similarity nq s
      if bestR < r ∧ th ≤ r then similar_loop nq th rest (some s) r
      else similar_loop nq th rest best bestR

/-- The first element attaining the maximal similarity strictly above
`bound` and at least `th` (the purely functional shape of the code's
best-match fold, used to characterise it). -/
def arg_best (nq : Str) (th : ℚ) : List Str → ℚ → Option Str
  | [], _ => none
  | s :: rest, bound =>
    if bound < similarity nq s ∧ th ≤ similarity nq s then
      match arg_best nq th rest (similarity nq s) with
      | none => some s
      | some b => some b
    else arg_best nq th rest bound

/-- `EntityNameNormalizer.get_similar_entity` (entity_normalizer.py lines
68-103): exact normalized match first, then the scan over the cache. -/
def get_similar_entity (cache : List Str) (name : Str) (th : ℚ) : Option Str :=
  let nq := normalize_name name
  if nq ∈ cache then some nq
  else similar_loop nq th cache none 0

/-- Registry state: the `entities` table rows (name, description) and the
in-memory `entity_cache`. -/
structure Registry where
  table : List (Str × Option Str)
  cache : List Str
deriving DecidableEq

/-- Python truthiness of an optional string (`if description:`): true only
for a present, non-empty string. -/
def truthy_desc : Option Str → Bool
  | some (_ :: _) => true
  | _ => false

/-- Python truthiness applied to the result of `get_similar_entity`
(`if similar_name:`): `None` and the empty string are both falsy. -/
def truthy_opt : Option Str → Option Str
  | some [] => none
  | o => o

/-- `EntityNameNormalizer.add_entity_to_db` (entity_normalizer.py lines
105-134): `INSERT OR IGNORE` of the normalized name (with the description
only when truthy), then add to the cache if absent. -/
def add_entity_to_db (st : Registry) (name : Str) (desc : Option Str) : Registry :=
  let n := normalize_name name
  let d := if truthy_desc desc then desc else none
  let table' := if n ∈ st.table.map Prod.fst then st.table else st.table ++ [(n, d)]
  let cache' := if n ∈ st.cache then st.cache else st.cache ++ [n]
  ⟨table', cache'⟩

/-- `EntityNameNormalizer.add_entity_description` (entity_normalizer.py lines
203-228): look up the row; only when it is absent or its description is SQL
NULL, update the row whose description is NULL or empty. -/
def add_entity_description (st : Registry) (name : Str) (d : Str) : Registry :=
  let n := normalize_name name
  match st.table.find? (fun p => p.1 = n) with
  | some (_, some _) => st
  | _ =>
    { st with table := st.table.map (fun p =>
        if p.1 = n ∧ (p.2 = none ∨ p.2 = some []) then (p.1, some d) else p) }

/-- The description column of the row carrying a normalized name. -/
def desc_of (st : Registry) (n : Str) : Option (Option Str) :=
  (st.table.find? (fun p => p.1 = n)).map Prod.snd

/-- `EntityNameNormalizer.load_cache` (entity_normalizer.py lines 37-45):
reload the cache from the table names. -/
def load_cache (st : Registry) : Registry :=
  { st with cache := st.table.map Prod.fst }

/-- `EntityNameNormalizer.clear_entities_db` (entity_normalizer.py lines
230-240): delete all rows and clear the cache. -/
def clear_entities_db (_st : Registry) : Registry := ⟨[], []⟩

/-- The registry well-formedness invariant: every cached name and every
table name is a fixed point of `normalize_name`. -/
def registry_wf (st : Registry) : Prop :=
  (∀ n ∈ st.cache, normalize_name n = n)
  ∧ (∀ n ∈ st.table.map Prod.fst, normalize_name n = n)

/-- An extracted entity (schemas.py / spec §3). -/
structure Entity where
  name : Str
  label : Str
  description : Option Str
deriving DecidableEq

/-- An extracted relationship; the properties other than
source/target/type are kept abstract as a key-value list. -/
structure Relationship where
  source : Str
  target : Str
  type : Str
  props : List (Str × Str)
deriving DecidableEq

/-- An extracted knowledge-graph fragment. -/
structure KnowledgeGraph where
  entities : List Entity
  relationships : List Relationship
deriving DecidableEq

/-- The entity loop of `EntityNameNormalizer.normalize_entity_names`
(entity_normalizer.py lines 170-187): for each entity, either reuse a
similar stored name (backfilling its description when the entity has one)
or insert the normalized name; the name mapping records one entry per
entity. -/
def process_entities (st : Registry) : List Entity → Registry × List (Str × Str)
  | [] => (st, [])
  | e :: rest =>
    match truthy_opt (get_similar_entity st.cache e.name default_threshold) with
    | some similar =>
      let st1 := if truthy_desc e.description then
          add_entity_description st similar (e.description.getD []) else st
      let res := process_entities st1 rest
      (res.1, (e.name, similar) :: res.2)
    | none =>
      let st1 := add_entity_to_db st e.name e.description
      let res := process_entities st1 rest
      (res.1, (e.name, normalize_name e.name) :: res.2)

/-- Python dict lookup on the accumulated `name_mapping`: the entry written
last wins. -/
def map_lookup (m : List (Str × Str)) (k : Str) : Option Str :=
  (m.reverse.find? (fun p => p.1 = k)).map Prod.snd

/-- The renaming passes of `normalize_entity_names` (entity_normalizer.py
lines 189-199): rewrite entity names and relationship endpoints that occur
in the mapping. -/
def apply_mapping (m : List (Str × Str)) (kg : KnowledgeGraph) : KnowledgeGraph :=
  { entities := kg.entities.map (fun e =>
      match map_lookup m e.name with
      | some v => { e with name := v }
      | none => e),
    relationships := kg.relationships.map (fun r =>
      let r1 := match map_lookup m r.source with
        | some v => { r with source := v }
        | none => r
      match map_lookup m r1.target with
      | some v => { r1 with target := v }
      | none => r1) }

/-- `EntityNameNormalizer.normalize_entity_names` (entity_normalizer.py
lines 168-201). -/
def normalize_entity_names (st : Registry) (kg : KnowledgeGraph) :
    Registry × KnowledgeGraph :=
  let res := process_entities st kg.entities
  (res.1, apply_mapping res.2 kg)

/-!
The Graph Merge Engine (`Neo4jGraphManager.execute_graph`,
BeltaScrapper/ЛП/neo4j_manager.py lines 140-190).  The Neo4j store is
modelled as a list of nodes (name, labels) and an association list of edges
keyed by (source, type, target); `timestamp()` is modelled by a logical
clock advanced once per relationship statement.
-/

/-- A stored graph node: `MERGE (n {name: ...}) ON CREATE SET n:Label`. -/
structure GraphNode where
  name : Str
  labels : List Str
deriving DecidableEq

/-- The key `(source, type, target)` an edge is merged on. -/
structure EdgeKey where
  source : Str
  type : Str
  target : Str
deriving DecidableEq

/-- A stored graph edge with its accumulated provenance. -/
structure GraphEdge where
  key : EdgeKey
  props : List (Str × Str)
  source_files : List Str
  created_at : Nat
  updated_at : Option Nat
deriving DecidableEq

/-- The graph store state. -/
structure GraphState where
  nodes : List GraphNode
  edges : List GraphEdge
  clock : Nat
deriving DecidableEq

/-- Does a node with the given `name` property exist (`MATCH (a {name: ..})`)? -/
def has_node (g : GraphState) (n : Str) : Bool :=
  g.nodes.any (fun nd => nd.name = n)

/-- The entity statement of `execute_graph` (neo4j_manager.py lines 145-155):
`MERGE (n {name: $name}) ON CREATE SET n:Label` — create the node if no node
carries this name, otherwise do nothing. -/
def upsert_entity (g : GraphState) (name label : Str) : GraphState :=
  if has_node g name then g
  else { g with nodes := g.nodes ++ [⟨name, [label]⟩] }

/-- Cypher map-merge `r += $props`: bindings in `new` overwrite those in
`base`, other bindings are kept. -/
def merge_props (base new : List (Str × Str)) : List (Str × Str) :=
  base.filter (fun kv => ¬ new.any (fun kv2 => kv2.1 = kv.1)) ++ new

/-- The provenance update of the relationship statement:
`CASE WHEN $src_file IS NULL THEN r.source_files WHEN $src_file IN
r.source_files THEN r.source_files ELSE r.source_files + $src_file END`. -/
def new_source_files (sf : List Str) (src : Option Str) : List Str :=
  match src with
  | none => sf
  | some s => if s ∈ sf then sf else sf ++ [s]

/-- Replace the first edge carrying the given key. -/
def update_first_edge : List GraphEdge → EdgeKey → (GraphEdge → GraphEdge) → List GraphEdge
  | [], _, _ => []
  | e :: rest, k, f =>
    if e.key = k then f e :: rest else e :: update_first_edge rest k f

/-- The relationship statement of `execute_graph` (neo4j_manager.py lines
157-190): `MATCH` both endpoints (a missing endpoint makes the whole
statement a no-op), then `MERGE (a)-[r:TYPE]->(b)` with `ON CREATE` setting
properties, provenance `[$src_file]` (or `[]` for a null source) and
`created_at`, and `ON MATCH` overwriting properties, appending the source
id only if absent, and refreshing `updated_at`. -/
def rel_key (rel : Relationship) : EdgeKey := ⟨rel.source, rel.type, rel.target⟩

/-- The edge produced by the `ON CREATE` branch: the given properties, the
provenance `[$src_file]` (or `[]` for a null source) and `created_at`. -/
def created_edge (rel : Relationship) (src : Option Str) (clock : Nat) : GraphEdge :=
  ⟨rel_key rel, merge_props [] rel.props,
    (match src with | none => [] | some s => [s]), clock, none⟩

/-- The `ON MATCH` branch: overwrite properties, append the source id only
if absent, refresh `updated_at`. -/
def matched_update (rel : Relationship) (src : Option Str) (clock : Nat)
    (e : GraphEdge) : GraphEdge :=
  { e with
    props := merge_props e.props rel.props,
    source_files := new_source_files e.source_files src,
    updated_at := some clock }

def merge_relationship (g : GraphState) (rel : Relationship) (src : Option Str) :
    GraphState :=
  if has_node g rel.source ∧ has_node g rel.target then
    match g.edges.find? (fun e => e.key = rel_key rel) with
    | none =>
      { g with edges := g.edges ++ [created_edge rel src g.clock], clock := g.clock + 1 }
    | some _ =>
      { g with
        edges := update_first_edge g.edges (rel_key rel) (matched_update rel src g.clock),
        clock := g.clock + 1 }
  else g

/-- STEP 1 of `execute_graph`: upsert every entity in order. -/
def run_entities (g : GraphState) : List Entity → GraphState
  | [] => g
  | e :: rest => run_entities (upsert_entity g e.name e.label) rest

/-- STEP 2 of `execute_graph`: merge every relationship in order. -/
def run_relationships (src : Option Str) (g : GraphState) : List Relationship → GraphState
  | [] => g
  | r :: rest => run_relationships src (merge_relationship g r src) rest

/-- STEP 2 of `execute_graph` with an explicit store-failure schedule: a
relationship paired with `true` has its `session.run` raise; the exception
is caught and logged (neo4j_manager.py lines 186-190), leaving the store
untouched, and the loop continues. -/
def run_relationships_sched (src : Option Str) (g : GraphState) :
    List (Relationship × Bool) → GraphState
  | [] => g
  | (r, failed) :: rest =>
    run_relationships_sched src (if failed then g else merge_relationship g r src) rest

/-- The result of one document merge pass. -/
structure MergeResult where
  registry : Registry
  graph : GraphState
  frag : KnowledgeGraph
deriving DecidableEq

/-- `Neo4jGraphManager.execute_graph` (neo4j_manager.py lines 140-190):
resolve the fragment against the registry (mutating both, since
`normalize_entity_names` renames the fragment in place), then merge all
entities, then all relationships. -/
def execute_graph (st : Registry) (g : GraphState) (kg : KnowledgeGraph)
    (src : Option Str) : MergeResult :=
  let res := normalize_entity_names st kg
  let g1 := run_entities g res.2.entities
  let g2 := run_relationships src g1 res.2.relationships
  ⟨res.1, g2, res.2⟩

/-!
Label/relationship-type sanitization.  `ReStoryTeller/neo4j_manager.py`
cleanses every dynamic label and relationship type with
`_sanitize_for_cypher` (lines 38-50) before interpolating it;
`BeltaScrapper/ЛП/neo4j_manager.py` interpolates `entity.label` and
`rel.type` into its query text unvalidated (lines 146-149 and 161-164).
-/

/-- The allow-list of the regex `[^a-zA-Z0-9_]`. -/
def allowed_char (c : Char) : Bool := c.isAlphanum || c = '_'

/-- `re.sub(r'[^a-zA-Z0-9_]', '_', text)`. -/
def replace_invalid (s : Str) : Str := s.map (fun c => if allowed_char c then c else '_')

/-- `re.sub(r'_+', '_', clean)`: collapse runs of underscores. -/
def collapse_underscores : Str → Str
  | [] => []
  | [c] => [c]
  | c :: d :: rest =>
    if c = '_' ∧ d = '_' then collapse_underscores (d :: rest)
    else c :: collapse_underscores (d :: rest)

/-- Python `clean.strip('_')`. -/
def strip_underscores (s : Str) : Str :=
  ((s.dropWhile (fun c => c = '_')).reverse.dropWhile (fun c => c = '_')).reverse

/-- Model of Python `clean.upper()`. -/
def py_upper (s : Str) : Str := s.map Char.toUpper

/-- `Neo4jGraphManager._sanitize_for_cypher` (ReStoryTeller/neo4j_manager.py
lines 38-50). -/
def sanitize_for_cypher (text : Str) : Str :=
  if text = [] then str "RELATED_TO"
  else
    let clean := py_upper (strip_underscores (collapse_underscores (replace_invalid text)))
    if clean = [] then str "RELATED_TO" else clean

/-- No two adjacent underscores (the post-condition of collapsing). -/
def no_double_underscore : Str → Bool
  | [] => true
  | [_] => true
  | c :: d :: rest => !(c = '_' && d = '_') && no_double_underscore (d :: rest)

/-- A value is a safe dynamic identifier when it is non-empty and every
character is in the allow-list. -/
def cypher_ident_ok (s : Str) : Bool := !s.isEmpty && s.all allowed_char

/-- The labels fragment `:Entity:{safe_label}` built at
ReStoryTeller/neo4j_manager.py lines 112-114. -/
def restory_entity_labels_str (label : Str) : Str :=
  str ":Entity:" ++ sanitize_for_cypher label

/-- The relationship type interpolated at ReStoryTeller/neo4j_manager.py
lines 152-162. -/
def restory_rel_type (t : Str) : Str := sanitize_for_cypher t

/-- The text preceding the interpolated label in the entity statement of
`execute_graph` (BeltaScrapper/ЛП/neo4j_manager.py lines 146-149), with the
surrounding whitespace of the Python triple-quoted string elided. -/
def belta_entity_query_prefix : Str :=
  str "MERGE (n \x7bname: $name\x7d) ON CREATE SET n:`"

/-- The entity statement of `execute_graph` (BeltaScrapper/ЛП/
neo4j_manager.py lines 146-149): `"... ON CREATE SET n:`%s`" % entity.label`
— the label is interpolated without sanitization. -/
def belta_entity_query (label : Str) : Str :=
  belta_entity_query_prefix ++ label ++ str "`"

/-- The labels of the node carrying a given name, if any. -/
def node_labels (g : GraphState) (n : Str) : Option (List Str) :=
  (g.nodes.find? (fun nd => nd.name = n)).map GraphNode.labels

/-- The first stored edge carrying the given key, if any. -/
def edge_find (g : GraphState) (k : EdgeKey) : Option GraphEdge :=
  g.edges.find? (fun e => e.key = k)

/-- The provenance list of the edge keyed `k` (empty when no such edge). -/
def sf_of (g : GraphState) (k : EdgeKey) : List Str :=
  match edge_find g k with
  | some e => e.source_files
  | none => []

/-! Helper lemmas. -/

theorem char_toNat_inj {c d : Char} (h : c.toNat = d.toNat) : c = d :=
  Char.eq_of_val_eq (UInt32.eq_of_toBitVec_eq (BitVec.eq_of_toNat_eq h))

theorem char_toNat_ofNat (n : Nat) (h : n.isValidChar) :
    (Char.ofNat n).toNat = n := by
  rw [Char.ofNat, dif_pos h]; rfl

theorem toNat_toLower (c : Char) :
    c.toLower.toNat = if 65 ≤ c.toNat ∧ c.toNat ≤ 90 then c.toNat + 32 else c.toNat := by
  unfold Char.toLower
  by_cases h : 65 ≤ c.toNat ∧ c.toNat ≤ 90
  · have hv : (c.toNat + 32).isValidChar := by
      left; omega
    simp only [ge_iff_le, h, and_self, if_true, if_pos]
    exact char_toNat_ofNat _ hv
  · simp only [ge_iff_le]
    rw [if_neg h, if_neg h]

theorem toNat_toUpper (c : Char) :
    c.toUpper.toNat = if 97 ≤ c.toNat ∧ c.toNat ≤ 122 then c.toNat - 32 else c.toNat := by
  unfold Char.toUpper
  by_cases h : 97 ≤ c.toNat ∧ c.toNat ≤ 122
  · have hv : (c.toNat - 32).isValidChar := by
      left; omega
    simp only [ge_iff_le, h, and_self, if_true, if_pos]
    exact char_toNat_ofNat _ hv
  · simp only [ge_iff_le]
    rw [if_neg h, if_neg h]

theorem toLower_toLower (c : Char) : c.toLower.toLower = c.toLower := by
  apply char_toNat_inj
  rw [toNat_toLower, toNat_toLower]
  split_ifs <;> omega

theorem isWhitespace_iff_toNat (c : Char) :
    c.isWhitespace = true ↔ (c.toNat = 32 ∨ c.toNat = 9 ∨ c.toNat = 13 ∨ c.toNat = 10) := by
  unfold Char.isWhitespace
  simp only [Bool.or_eq_true, decide_eq_true_eq]
  constructor
  · intro h
    rcases h with ((h | h) | h) | h <;> subst h <;> simp [Char.toNat]
  · intro h
    rcases h with h | h | h | h
    · exact Or.inl (Or.inl (Or.inl (char_toNat_inj (by rw [h]; rfl))))
    · exact Or.inl (Or.inl (Or.inr (char_toNat_inj (by rw [h]; rfl))))
    · exact Or.inl (Or.inr (char_toNat_inj (by rw [h]; rfl)))
    · exact Or.inr (char_toNat_inj (by rw [h]; rfl))

theorem isWhitespace_toLower (c : Char) :
    c.toLower.isWhitespace = c.isWhitespace := by
  by_cases h : 65 ≤ c.toNat ∧ c.toNat ≤ 90
  · have h1 : c.toLower.toNat = c.toNat + 32 := by
      rw [toNat_toLower, if_pos h]
    have lhs : c.toLower.isWhitespace = false := by
      by_contra hcon
      have := (isWhitespace_iff_toNat c.toLower).mp (by
        cases hb : c.toLower.isWhitespace with
        | false => exact absurd hb hcon
        | true => rfl)
      omega
    have rhs : c.isWhitespace = false := by
      by_contra hcon
      have := (isWhitespace_iff_toNat c).mp (by
        cases hb : c.isWhitespace with
        | false => exact absurd hb hcon
        | true => rfl)
      omega
    rw [lhs, rhs]
  · have h1 : c.toLower = c := by
      apply char_toNat_inj
      rw [toNat_toLower, if_neg h]
    rw [h1]

theorem py_lower_idem (s : Str) : py_lower (py_lower s) = py_lower s := by
  unfold py_lower
  rw [List.map_map]
  apply List.map_congr_left
  intro c _
  exact toLower_toLower c

theorem map_toLower_dropWhile_ws (l : Str) :
    (l.dropWhile Char.isWhitespace).map Char.toLower
      = (l.map Char.toLower).dropWhile Char.isWhitespace := by
  have hp : (Char.isWhitespace ∘ Char.toLower) = Char.isWhitespace := by
    funext c; exact isWhitespace_toLower c
  rw [List.dropWhile_map, hp]

theorem py_strip_lower_comm (s : Str) :
    py_lower (py_strip s) = py_strip (py_lower s) := by
  unfold py_strip py_lower
  rw [List.map_reverse, map_toLower_dropWhile_ws, List.map_reverse,
    map_toLower_dropWhile_ws]

theorem dropWhile_idem (p : Char → Bool) (l : Str) :
    (l.dropWhile p).dropWhile p = l.dropWhile p := by
  induction l with
  | nil => rfl
  | cons c rest ih =>
    by_cases h : p c
    · simp [List.dropWhile_cons, h, ih]
    · simp [List.dropWhile_cons, h]

theorem dropWhile_head_not (p : Char → Bool) (l : Str) (h : l.dropWhile p ≠ []) :
    ∃ c rest, l.dropWhile p = c :: rest ∧ p c = false := by
  have := List.head?_dropWhile_not p l
  cases hd : (l.dropWhile p) with
  | nil => exact absurd hd h
  | cons c rest =>
    refine ⟨c, rest, rfl, ?_⟩
    rw [hd] at this
    simpa using this

theorem dropWhile_of_head_not (p : Char → Bool) (l : Str)
    (h : ∀ c rest, l = c :: rest → p c = false) : l.dropWhile p = l := by
  cases l with
  | nil => rfl
  | cons c rest =>
    have := h c rest rfl
    simp [List.dropWhile_cons, this]

theorem py_strip_idem (s : Str) : py_strip (py_strip s) = py_strip s := by
  have hfirst : ∀ c rest, py_strip s = c :: rest → c.isWhitespace = false := by
    intro c rest hcr
    have hlast : ((s.dropWhile Char.isWhitespace).reverse.dropWhile Char.isWhitespace).getLast?
        = some c := by
      have hh : (py_strip s).head? = some c := by rw [hcr]; rfl
      unfold py_strip at hh
      rwa [List.head?_reverse] at hh
    rcases List.dropWhile_suffix (p := Char.isWhitespace)
      (l := (s.dropWhile Char.isWhitespace).reverse) with ⟨pre, hpre⟩
    have hlast2 : (s.dropWhile Char.isWhitespace).head? = some c := by
      have hg : ((s.dropWhile Char.isWhitespace).reverse).getLast? = some c := by
        rw [← hpre, List.getLast?_append, hlast]
        rfl
      rwa [List.getLast?_reverse] at hg
    have hno := List.head?_dropWhile_not Char.isWhitespace s
    rw [hlast2] at hno
    exact hno
  have h1 : (py_strip s).dropWhile Char.isWhitespace = py_strip s :=
    dropWhile_of_head_not _ _ hfirst
  have hrev : (py_strip s).reverse =
      (s.dropWhile Char.isWhitespace).reverse.dropWhile Char.isWhitespace := by
    unfold py_strip
    rw [List.reverse_reverse]
  show (((py_strip s).dropWhile Char.isWhitespace).reverse.dropWhile Char.isWhitespace).reverse
      = py_strip s
  rw [h1, hrev, dropWhile_idem]
  rfl

theorem normalize_name_idem (s : Str) :
    normalize_name (normalize_name s) = normalize_name s := by
  unfold normalize_name
  rw [py_strip_lower_comm, py_lower_idem, py_strip_idem]

example : similarity (str "abc") (str "abc") = 1 := by decide
example : similarity (str "putln") (str "putin") = mkRat 4 5 := by decide
example : similarity (str "abc") (str "xyz") = 0 := by decide
set_option maxRecDepth 10000 in
example : similarity (str "alexander lukashenko") (str "lukashenko") = mkRat 2 3 := by decide
set_option maxRecDepth 10000 in
example : similarity (str "vladimira putina") (str "putina") = mkRat 6 11 := by decide
set_option maxRecDepth 20000 in
example : similarity (str "ministry of health") (str "ministry of education") = mkRat 10 13 := by decide
example : similarity (str "abcd") (str "bcda") = mkRat 3 4 := by decide

/-- C9: `normalize_name` is deterministic lowercase-plus-trim, so resolution
only depends on the normalized query: names with equal normalizations
resolve identically in every registry state; in particular
"  Alexander Lukashenko " and "alexander lukashenko" resolve identically. -/
theorem C9_resolve_normalize_invariant :
    ∀ (cache : List Str) (a b : Str) (th : ℚ),
      (normalize_name a = normalize_name b →
        get_similar_entity cache a th = get_similar_entity cache b th)
      ∧ get_similar_entity cache (str "  Alexander Lukashenko ") th
          = get_similar_entity cache (str "alexander lukashenko") th := by
  intro cache a b th
  have base : ∀ x y : Str, normalize_name x = normalize_name y →
      get_similar_entity cache x th = get_similar_entity cache y th := by
    intro x y h
    unfold get_similar_entity
    rw [h]
  exact ⟨base a b, base _ _ (by decide)⟩

/-- C9 witness: the invariance instantiated on a concrete registry. -/
theorem C9_resolve_normalize_invariant_witness :
    get_similar_entity [str "alexander lukashenko"] (str "  Alexander Lukashenko ")
        default_threshold
      = get_similar_entity [str "alexander lukashenko"] (str "alexander lukashenko")
        default_threshold :=
  (C9_resolve_normalize_invariant [str "alexander lukashenko"]
    (str "  Alexander Lukashenko ") (str "alexander lukashenko")
    default_threshold).1 (by decide)

theorem upsert_entity_hit (g : GraphState) (X L : Str) (h : has_node g X = true) :
    upsert_entity g X L = g := by
  unfold upsert_entity
  rw [h]
  simp

theorem upsert_entity_miss (g : GraphState) (X L : Str) (h : has_node g X = false) :
    upsert_entity g X L = { g with nodes := g.nodes ++ [⟨X, [L]⟩] } := by
  unfold upsert_entity
  rw [h]
  simp

/-- C6: `upsert_entity` sets a node's label only at creation.  If a node
with the name already exists, the upsert leaves the whole store unchanged
(so the label and every other field are untouched); upserting a fresh name
as `Lp` and then again as `Lo` leaves the labels `[Lp]`. -/
theorem C6_label_first_write_wins :
    ∀ (g : GraphState) (X L' : Str),
      (has_node g X = true → upsert_entity g X L' = g)
      ∧ (has_node g X = false → ∀ Lp Lo : Str,
          node_labels (upsert_entity (upsert_entity g X Lp) X Lo) X = some [Lp]) := by
  intro g X L'
  constructor
  · intro h
    exact upsert_entity_hit g X L' h
  · intro h Lp Lo
    have h1 : upsert_entity g X Lp = { g with nodes := g.nodes ++ [⟨X, [Lp]⟩] } :=
      upsert_entity_miss g X Lp h
    have h2 : has_node (upsert_entity g X Lp) X = true := by
      rw [h1]
      unfold has_node
      simp [List.any_append]
    have h3 : upsert_entity (upsert_entity g X Lp) X Lo = upsert_entity g X Lp :=
      upsert_entity_hit _ X Lo h2
    rw [h3, h1]
    unfold node_labels
    have hnone : g.nodes.find? (fun nd => nd.name = X) = none := by
      rw [List.find?_eq_none]
      intro nd hnd
      unfold has_node at h
      rw [List.any_eq_false] at h
      have := h nd hnd
      simpa using this
    simp [List.find?_append, hnone]

/-- C6 witness: upserting "X" as "Person" and then as "Organization" leaves
the store unchanged by the second upsert and the label "Person". -/
theorem C6_label_first_write_wins_witness :
    upsert_entity (upsert_entity ⟨[], [], 0⟩ (str "X") (str "Person")) (str "X")
        (str "Organization")
      = upsert_entity ⟨[], [], 0⟩ (str "X") (str "Person")
    ∧ node_labels
        (upsert_entity (upsert_entity ⟨[], [], 0⟩ (str "X") (str "Person")) (str "X")
          (str "Organization")) (str "X") = some [str "Person"] :=
  ⟨(C6_label_first_write_wins (upsert_entity ⟨[], [], 0⟩ (str "X") (str "Person"))
      (str "X") (str "Organization")).1 (by decide),
   (C6_label_first_write_wins ⟨[], [], 0⟩ (str "X") (str "Organization")).2
      (by decide) (str "Person") (str "Organization")⟩

theorem find?_update_first_same (l : List GraphEdge) (k : EdgeKey)
    (f : GraphEdge → GraphEdge) (hf : ∀ e, (f e).key = e.key) :
    (update_first_edge l k f).find? (fun e => e.key = k)
      = (l.find? (fun e => e.key = k)).map f := by
  induction l with
  | nil => rfl
  | cons e rest ih =>
    by_cases h : e.key = k
    · unfold update_first_edge
      rw [if_pos h]
      rw [List.find?_cons_of_pos _ (by simp [hf, h]), List.find?_cons_of_pos _ (by simp [h])]
      rfl
    · unfold update_first_edge
      rw [if_neg h]
      rw [List.find?_cons_of_neg _ (by simp [h]), List.find?_cons_of_neg _ (by simp [h])]
      exact ih

theorem find?_update_first_ne (l : List GraphEdge) (k k' : EdgeKey)
    (f : GraphEdge → GraphEdge) (hf : ∀ e, (f e).key = e.key) (hk : k' ≠ k) :
    (update_first_edge l k f).find? (fun e => e.key = k')
      = l.find? (fun e => e.key = k') := by
  induction l with
  | nil => rfl
  | cons e rest ih =>
    by_cases h : e.key = k
    · unfold update_first_edge
      rw [if_pos h]
      have hne : ¬ (f e).key = k' := by rw [hf, h]; exact fun hh => hk hh.symm
      have hne2 : ¬ e.key = k' := by rw [h]; exact fun hh => hk hh.symm
      rw [List.find?_cons_of_neg _ (by simp [hne]), List.find?_cons_of_neg _ (by simp [hne2])]
    · unfold update_first_edge
      rw [if_neg h]
      by_cases h2 : e.key = k'
      · rw [List.find?_cons_of_pos _ (by simp [h2]), List.find?_cons_of_pos _ (by simp [h2])]
      · rw [List.find?_cons_of_neg _ (by simp [h2]), List.find?_cons_of_neg _ (by simp [h2])]
        exact ih

theorem merge_relationship_missing (g : GraphState) (r : Relationship) (src : Option Str)
    (h : ¬ (has_node g r.source = true ∧ has_node g r.target = true)) :
    merge_relationship g r src = g := by
  unfold merge_relationship
  rw [if_neg h]

theorem merge_relationship_create (g : GraphState) (r : Relationship) (src : Option Str)
    (h : has_node g r.source = true ∧ has_node g r.target = true)
    (hfind : g.edges.find? (fun e => e.key = rel_key r) = none) :
    merge_relationship g r src
      = { g with edges := g.edges ++ [created_edge r src g.clock], clock := g.clock + 1 } := by
  unfold merge_relationship
  rw [if_pos h, hfind]

theorem merge_relationship_matched (g : GraphState) (r : Relationship) (src : Option Str)
    (e0 : GraphEdge)
    (h : has_node g r.source = true ∧ has_node g r.target = true)
    (hfind : g.edges.find? (fun e => e.key = rel_key r) = some e0) :
    merge_relationship g r src
      = { g with
          edges := update_first_edge g.edges (rel_key r) (matched_update r src g.clock),
          clock := g.clock + 1 } := by
  unfold merge_relationship
  rw [if_pos h, hfind]

theorem matched_update_key (r : Relationship) (src : Option Str) (clock : Nat) :
    ∀ e, (matched_update r src clock e).key = e.key := fun _ => rfl

theorem sf_of_merge_relationship (g : GraphState) (r : Relationship)
    (src : Option Str) (k : EdgeKey) :
    sf_of (merge_relationship g r src) k = sf_of g k
    ∨ (∃ s, src = some s ∧ s ∉ sf_of g k
        ∧ sf_of (merge_relationship g r src) k = sf_of g k ++ [s]) := by
  by_cases hep : has_node g r.source = true ∧ has_node g r.target = true
  · cases hfind : g.edges.find? (fun e => e.key = rel_key r) with
    | none =>
      rw [merge_relationship_create g r src hep hfind]
      by_cases hk : k = rel_key r
      · have h0 : sf_of g k = [] := by
          unfold sf_of edge_find
          rw [hk, hfind]
        have h1 : List.find? (fun e => e.key = k) [created_edge r src g.clock]
            = some (created_edge r src g.clock) := by
          apply List.find?_cons_of_pos
          simp [created_edge, hk]
        have h2 : sf_of {g with edges := g.edges ++ [created_edge r src g.clock], clock := g.clock + 1} k = (created_edge r src g.clock).source_files := by
          unfold sf_of edge_find
          simp only [List.find?_append]
          rw [hk, hfind, ← hk, h1]
          rfl
        cases src with
        | none =>
          left
          rw [h2, h0]
          rfl
        | some s =>
          right
          refine ⟨s, rfl, by rw [h0]; simp, ?_⟩
          rw [h2, h0]
          rfl
      · left
        have h1 : List.find? (fun e => e.key = k) [created_edge r src g.clock] = none := by
          rw [List.find?_eq_none]
          intro x hx
          rw [List.mem_singleton] at hx
          subst hx
          simp [created_edge]
          exact fun hh => hk hh.symm
        unfold sf_of edge_find
        simp only [List.find?_append, h1, Option.or_none]
    | some e0 =>
      rw [merge_relationship_matched g r src e0 hep hfind]
      by_cases hk : k = rel_key r
      · have heq := find?_update_first_same g.edges (rel_key r)
          (matched_update r src g.clock) (matched_update_key r src g.clock)
        have h0 : sf_of g k = e0.source_files := by
          unfold sf_of edge_find
          rw [hk, hfind]
        have h1 : sf_of {g with edges := update_first_edge g.edges (rel_key r) (matched_update r src g.clock), clock := g.clock + 1} k = new_source_files e0.source_files src := by
          unfold sf_of edge_find
          show (match (update_first_edge g.edges (rel_key r) (matched_update r src g.clock)).find? (fun e => e.key = k) with
            | some e => e.source_files
            | none => []) = new_source_files e0.source_files src
          rw [hk, heq, hfind]
          rfl
        cases src with
        | none =>
          left
          rw [h1, h0]
          rfl
        | some s =>
          by_cases hmem : s ∈ e0.source_files
          · left
            rw [h1, h0]
            simp [new_source_files, hmem]
          · right
            refine ⟨s, rfl, by rw [h0]; exact hmem, ?_⟩
            rw [h1, h0]
            simp [new_source_files, hmem]
      · left
        have heq := find?_update_first_ne g.edges (rel_key r) k
          (matched_update r src g.clock) (matched_update_key r src g.clock) hk
        unfold sf_of edge_find
        simp only [heq]
  · rw [merge_relationship_missing g r src hep]
    left
    rfl

theorem sf_of_run_relationships (src : Option Str) (rels : List Relationship)
    (g : GraphState) (k : EdgeKey) :
    sf_of (run_relationships src g rels) k = sf_of g k
    ∨ (∃ s, src = some s ∧ s ∉ sf_of g k
        ∧ sf_of (run_relationships src g rels) k = sf_of g k ++ [s]) := by
  induction rels generalizing g with
  | nil => left; rfl
  | cons r rest ih =>
    have hrun : run_relationships src g (r :: rest)
        = run_relationships src (merge_relationship g r src) rest := rfl
    rw [hrun]
    rcases sf_of_merge_relationship g r src k with hstep | ⟨s, hsrc, hnot, hstep⟩
    · rcases ih (merge_relationship g r src) with hrest | ⟨s2, hsrc2, hnot2, hrest⟩
      · left; rw [hrest, hstep]
      · right
        exact ⟨s2, hsrc2, by rw [hstep] at hnot2; exact hnot2, by rw [hrest, hstep]⟩
    · rcases ih (merge_relationship g r src) with hrest | ⟨s2, hsrc2, hnot2, hrest⟩
      · right
        exact ⟨s, hsrc, hnot, by rw [hrest, hstep]⟩
      · exfalso
        have hs2 : s2 = s := by
          rw [hsrc] at hsrc2
          exact (Option.some.injEq _ _).mp hsrc2.symm
        apply hnot2
        rw [hstep, hs2]
        exact List.mem_append_right _ (List.mem_singleton.mpr rfl)

theorem run_entities_edges (es : List Entity) (g : GraphState) :
    (run_entities g es).edges = g.edges := by
  induction es generalizing g with
  | nil => rfl
  | cons e rest ih =>
    have h1 : (upsert_entity g e.name e.label).edges = g.edges := by
      unfold upsert_entity
      by_cases h : has_node g e.name
      · rw [if_pos h]
      · rw [if_neg h]
    have h2 : run_entities g (e :: rest) = run_entities (upsert_entity g e.name e.label) rest := rfl
    rw [h2, ih, h1]

theorem sf_of_eq_of_edges_eq {g g' : GraphState} (h : g.edges = g'.edges) (k : EdgeKey) :
    sf_of g k = sf_of g' k := by
  unfold sf_of edge_find
  rw [h]

/-- C2: a merge pass never removes an element from an edge's `source_files`
list; for each edge key the list is either unchanged or extended by the
pass's source id, and only when that id was absent (set semantics) — in
particular a pass with a null or different source id preserves every
previously recorded source identifier. -/
theorem C2_source_files_monotone :
    ∀ (st : Registry) (g : GraphState) (kg : KnowledgeGraph) (src : Option Str)
      (k : EdgeKey),
      (∀ x, x ∈ sf_of g k → x ∈ sf_of (execute_graph st g kg src).graph k)
      ∧ (sf_of (execute_graph st g kg src).graph k = sf_of g k
         ∨ ∃ s, src = some s ∧ s ∉ sf_of g k
             ∧ sf_of (execute_graph st g kg src).graph k = sf_of g k ++ [s]) := by
  intro st g kg src k
  have hgraph : (execute_graph st g kg src).graph
      = run_relationships src (run_entities g (normalize_entity_names st kg).2.entities)
        (normalize_entity_names st kg).2.relationships := rfl
  have h1 : sf_of (run_entities g (normalize_entity_names st kg).2.entities) k
      = sf_of g k :=
    sf_of_eq_of_edges_eq (run_entities_edges _ g) k
  have hd := sf_of_run_relationships src (normalize_entity_names st kg).2.relationships
    (run_entities g (normalize_entity_names st kg).2.entities) k
  rw [h1] at hd
  rw [hgraph]
  refine ⟨?_, hd⟩
  intro x hx
  rcases hd with heq | ⟨s, _, _, heq⟩
  · rw [heq]; exact hx
  · rw [heq]; exact List.mem_append_left _ hx

/-- C2 witness: an edge already carrying "doc1" keeps it when the same edge
is merged again from "doc2". -/
theorem C2_source_files_monotone_witness :
    str "doc1" ∈ sf_of (execute_graph ⟨[], []⟩
      ⟨[⟨str "a", [str "Person"]⟩, ⟨str "b", [str "Person"]⟩],
       [⟨⟨str "a", str "KNOWS", str "b"⟩, [], [str "doc1"], 0, none⟩], 1⟩
      ⟨[], [⟨str "a", str "b", str "KNOWS", []⟩]⟩
      (some (str "doc2"))).graph ⟨str "a", str "KNOWS", str "b"⟩ :=
  (C2_source_files_monotone ⟨[], []⟩
    ⟨[⟨str "a", [str "Person"]⟩, ⟨str "b", [str "Person"]⟩],
     [⟨⟨str "a", str "KNOWS", str "b"⟩, [], [str "doc1"], 0, none⟩], 1⟩
    ⟨[], [⟨str "a", str "b", str "KNOWS", []⟩]⟩
    (some (str "doc2")) ⟨str "a", str "KNOWS", str "b"⟩).1 (str "doc1") (by decide)

theorem merge_relationship_nodes (g : GraphState) (r : Relationship) (src : Option Str) :
    (merge_relationship g r src).nodes = g.nodes := by
  unfold merge_relationship
  by_cases hep : has_node g r.source = true ∧ has_node g r.target = true
  · rw [if_pos hep]
    cases g.edges.find? (fun e => e.key = rel_key r) <;> rfl
  · rw [if_neg hep]

theorem run_relationships_sched_nodes (src : Option Str)
    (pairs : List (Relationship × Bool)) (g : GraphState) :
    (run_relationships_sched src g pairs).nodes = g.nodes := by
  induction pairs generalizing g with
  | nil => rfl
  | cons p rest ih =>
    rcases p with ⟨r, failed⟩
    have h : run_relationships_sched src g ((r, failed) :: rest)
        = run_relationships_sched src (if failed then g else merge_relationship g r src) rest := rfl
    rw [h, ih]
    cases failed with
    | true => rfl
    | false => simp [merge_relationship_nodes]

/-- C5: relationship failures are isolated.  Running the relationship phase
with a failure schedule produces exactly the state obtained by merging the
non-failing relationships (so a failing store call skips only its own
relationship and never aborts or rolls back the rest), a relationship with a
missing endpoint is a no-op on the store, and no relationship ever disturbs
the nodes persisted by the entity phase. -/
theorem C5_relationship_failures_isolated :
    ∀ (src : Option Str) (g : GraphState) (pairs : List (Relationship × Bool))
      (r : Relationship),
      run_relationships_sched src g pairs
        = run_relationships src g ((pairs.filter (fun p => !p.2)).map Prod.fst)
      ∧ ((has_node g r.source = false ∨ has_node g r.target = false) →
          merge_relationship g r src = g)
      ∧ (run_relationships_sched src g pairs).nodes = g.nodes := by
  intro src g pairs r
  refine ⟨?_, ?_, run_relationships_sched_nodes src pairs g⟩
  · induction pairs generalizing g with
    | nil => rfl
    | cons p rest ih =>
      rcases p with ⟨r', failed⟩
      have h : run_relationships_sched src g ((r', failed) :: rest)
          = run_relationships_sched src (if failed then g else merge_relationship g r' src) rest := rfl
      rw [h]
      cases failed with
      | true =>
        rw [show (if true = true then g else merge_relationship g r' src) = g from rfl]
        rw [show ((r', true) :: rest).filter (fun p => !p.2)
            = rest.filter (fun p => !p.2) from rfl]
        exact ih g
      | false =>
        rw [show (if false = true then g else merge_relationship g r' src)
            = merge_relationship g r' src from rfl]
        rw [show ((r', false) :: rest).filter (fun p => !p.2)
            = (r', false) :: rest.filter (fun p => !p.2) from rfl]
        rw [List.map_cons]
        have h2 : run_relationships src g
              (r' :: (rest.filter (fun p => !p.2)).map Prod.fst)
            = run_relationships src (merge_relationship g r' src)
              ((rest.filter (fun p => !p.2)).map Prod.fst) := rfl
        rw [h2]
        exact ih (merge_relationship g r' src)
  · intro h
    apply merge_relationship_missing
    rcases h with h | h
    · intro hc
      rw [hc.1] at h
      exact Bool.noConfusion h
    · intro hc
      rw [hc.2] at h
      exact Bool.noConfusion h

/-- C5 witness: with one scheduled failure the pass equals merging only the
surviving relationship, and a relationship whose target node is absent
leaves the store untouched. -/
theorem C5_relationship_failures_isolated_witness :
    run_relationships_sched (some (str "doc1")) ⟨[⟨str "a", [str "Person"]⟩], [], 0⟩
        [(⟨str "a", str "a", str "KNOWS", []⟩, false),
         (⟨str "a", str "a", str "LIKES", []⟩, true)]
      = run_relationships (some (str "doc1")) ⟨[⟨str "a", [str "Person"]⟩], [], 0⟩
        [⟨str "a", str "a", str "KNOWS", []⟩]
    ∧ merge_relationship ⟨[⟨str "a", [str "Person"]⟩], [], 0⟩
        ⟨str "a", str "missing", str "KNOWS", []⟩ (some (str "doc1"))
      = ⟨[⟨str "a", [str "Person"]⟩], [], 0⟩ :=
  ⟨(C5_relationship_failures_isolated (some (str "doc1"))
      ⟨[⟨str "a", [str "Person"]⟩], [], 0⟩
      [(⟨str "a", str "a", str "KNOWS", []⟩, false),
       (⟨str "a", str "a", str "LIKES", []⟩, true)]
      ⟨str "a", str "missing", str "KNOWS", []⟩).1,
   (C5_relationship_failures_isolated (some (str "doc1"))
      ⟨[⟨str "a", [str "Person"]⟩], [], 0⟩ []
      ⟨str "a", str "missing", str "KNOWS", []⟩).2.1 (Or.inr (by decide))⟩

theorem uint32_le_iff_toNat_le {a b : UInt32} : a ≤ b ↔ a.toNat ≤ b.toNat := by
  rw [UInt32.le_def, BitVec.le_def]
  exact Iff.rfl

theorem uint32_lit_le_iff (m : Nat) (hm : m < 4294967296) (x : UInt32) :
    ((OfNat.ofNat m : UInt32) ≤ x) ↔ m ≤ x.toNat := by
  rw [uint32_le_iff_toNat_le, UInt32.toNat_ofNat, Nat.mod_eq_of_lt hm]

theorem uint32_le_lit_iff (m : Nat) (hm : m < 4294967296) (x : UInt32) :
    (x ≤ (OfNat.ofNat m : UInt32)) ↔ x.toNat ≤ m := by
  rw [uint32_le_iff_toNat_le, UInt32.toNat_ofNat, Nat.mod_eq_of_lt hm]

theorem char_eq_iff_toNat {c : Char} {d : Char} : c = d ↔ c.toNat = d.toNat :=
  ⟨fun h => by rw [h], char_toNat_inj⟩

theorem allowed_char_iff_toNat (c : Char) :
    allowed_char c = true
      ↔ ((48 ≤ c.toNat ∧ c.toNat ≤ 57) ∨ (65 ≤ c.toNat ∧ c.toNat ≤ 90)
        ∨ (97 ≤ c.toNat ∧ c.toNat ≤ 122) ∨ c.toNat = 95) := by
  unfold allowed_char Char.isAlphanum Char.isAlpha Char.isUpper Char.isLower Char.isDigit
  simp only [Bool.or_eq_true, Bool.and_eq_true, decide_eq_true_eq, ge_iff_le]
  rw [uint32_lit_le_iff 65 (by norm_num), uint32_le_lit_iff 90 (by norm_num),
    uint32_lit_le_iff 97 (by norm_num), uint32_le_lit_iff 122 (by norm_num),
    uint32_lit_le_iff 48 (by norm_num), uint32_le_lit_iff 57 (by norm_num)]
  have hund : (c = '_' ↔ c.toNat = 95) := by
    rw [char_eq_iff_toNat]
    have : ('_' : Char).toNat = 95 := by decide
    rw [this]
  rw [hund]
  show (((65 ≤ c.val.toNat ∧ c.val.toNat ≤ 90) ∨ (97 ≤ c.val.toNat ∧ c.val.toNat ≤ 122))
      ∨ (48 ≤ c.val.toNat ∧ c.val.toNat ≤ 57)) ∨ c.toNat = 95
    ↔ (48 ≤ c.toNat ∧ c.toNat ≤ 57) ∨ (65 ≤ c.toNat ∧ c.toNat ≤ 90)
      ∨ (97 ≤ c.toNat ∧ c.toNat ≤ 122) ∨ c.toNat = 95
  tauto

theorem allowed_char_toUpper (c : Char) (h : allowed_char c = true) :
    allowed_char c.toUpper = true := by
  rw [allowed_char_iff_toNat] at h ⊢
  rw [toNat_toUpper]
  split_ifs <;> omega

theorem toUpper_eq_underscore_iff (c : Char) : (c.toUpper = '_') ↔ c = '_' := by
  rw [char_eq_iff_toNat, char_eq_iff_toNat, toNat_toUpper]
  have h95 : ('_' : Char).toNat = 95 := by decide
  rw [h95]
  split_ifs with h
  · omega
  · exact Iff.rfl

theorem mem_replace_invalid_allowed (s : Str) (c : Char)
    (h : c ∈ replace_invalid s) : allowed_char c = true := by
  unfold replace_invalid at h
  rcases List.mem_map.mp h with ⟨a, _, ha⟩
  by_cases hall : allowed_char a = true
  · rw [if_pos hall] at ha
    rw [← ha]
    exact hall
  · rw [if_neg hall] at ha
    rw [← ha]
    decide

theorem collapse_cons_head (l : Str) : ∀ c, ∃ t, collapse_underscores (c :: l) = c :: t := by
  induction l with
  | nil => intro c; exact ⟨[], rfl⟩
  | cons d rest ih =>
    intro c
    by_cases h : c = '_' ∧ d = '_'
    · have hstep : collapse_underscores (c :: d :: rest) = collapse_underscores (d :: rest) := by
        simp only [collapse_underscores]
        rw [if_pos h]
      rcases ih d with ⟨t, ht⟩
      refine ⟨t, ?_⟩
      rw [hstep, ht, h.1, h.2]
    · have hstep : collapse_underscores (c :: d :: rest)
          = c :: collapse_underscores (d :: rest) := by
        simp only [collapse_underscores]
        rw [if_neg h]
      exact ⟨collapse_underscores (d :: rest), hstep⟩

theorem mem_collapse (l : Str) (c : Char) (h : c ∈ collapse_underscores l) : c ∈ l := by
  induction l with
  | nil => exact absurd h (by simp [collapse_underscores])
  | cons d rest ih =>
    cases rest with
    | nil =>
      simp only [collapse_underscores] at h
      exact h
    | cons e rest2 =>
      by_cases hde : d = '_' ∧ e = '_'
      · have hstep : collapse_underscores (d :: e :: rest2)
            = collapse_underscores (e :: rest2) := by
          simp only [collapse_underscores]
          rw [if_pos hde]
        rw [hstep] at h
        exact List.mem_cons_of_mem d (ih h)
      · have hstep : collapse_underscores (d :: e :: rest2)
            = d :: collapse_underscores (e :: rest2) := by
          simp only [collapse_underscores]
          rw [if_neg hde]
        rw [hstep] at h
        rcases List.mem_cons.mp h with h | h
        · exact h ▸ List.mem_cons_self d _
        · exact List.mem_cons_of_mem d (ih h)

theorem ndu_collapse (l : Str) : no_double_underscore (collapse_underscores l) = true := by
  induction l with
  | nil => rfl
  | cons d rest ih =>
    cases rest with
    | nil => rfl
    | cons e rest2 =>
      by_cases hde : d = '_' ∧ e = '_'
      · have hstep : collapse_underscores (d :: e :: rest2)
            = collapse_underscores (e :: rest2) := by
          simp only [collapse_underscores]
          rw [if_pos hde]
        rw [hstep]
        exact ih
      · have hstep : collapse_underscores (d :: e :: rest2)
            = d :: collapse_underscores (e :: rest2) := by
          simp only [collapse_underscores]
          rw [if_neg hde]
        rw [hstep]
        rcases collapse_cons_head rest2 e with ⟨t, ht⟩
        rw [ht]
        show (!(d = '_' && e = '_') && no_double_underscore (e :: t)) = true
        have hne : (decide (d = '_') && decide (e = '_')) = false := by
          by_cases hd : d = '_'
          · have hee : ¬ e = '_' := fun he => hde ⟨hd, he⟩
            simp [hd, hee]
          · simp [hd]
        rw [show (decide (d = '_') && decide (e = '_')) = (d = '_' && e = '_') from rfl] at hne
        rw [hne]
        rw [← ht]
        simpa using ih

theorem ndu_tail (c : Char) (l : Str) (h : no_double_underscore (c :: l) = true) :
    no_double_underscore l = true := by
  cases l with
  | nil => rfl
  | cons d t =>
    have h2 : (!(c = '_' && d = '_') && no_double_underscore (d :: t)) = true := h
    rw [Bool.and_eq_true] at h2
    exact h2.2

theorem ndu_iff_chain (l : Str) :
    no_double_underscore l = true ↔ l.Chain' (fun a b => ¬ (a = '_' ∧ b = '_')) := by
  induction l with
  | nil => simp [no_double_underscore]
  | cons c rest ih =>
    cases rest with
    | nil => simp [no_double_underscore]
    | cons d t =>
      have hstep : no_double_underscore (c :: d :: t)
          = (!(c = '_' && d = '_') && no_double_underscore (d :: t)) := rfl
      rw [hstep, List.chain'_cons, Bool.and_eq_true, ← ih]
      constructor
      · rintro ⟨h1, h2⟩
        refine ⟨?_, h2⟩
        intro ⟨hc, hd⟩
        simp [hc, hd] at h1
      · rintro ⟨h1, h2⟩
        refine ⟨?_, h2⟩
        by_cases hc : c = '_'
        · have hd : ¬ d = '_' := fun hd => h1 ⟨hc, hd⟩
          simp [hc, hd]
        · simp [hc]

theorem ndu_reverse (l : Str) :
    no_double_underscore l.reverse = true ↔ no_double_underscore l = true := by
  rw [ndu_iff_chain, ndu_iff_chain]
  rw [List.chain'_reverse]
  constructor
  · intro h
    exact h.imp (fun a b hab => fun ⟨ha, hb⟩ => hab ⟨hb, ha⟩)
  · intro h
    exact h.imp (fun a b hab => fun ⟨ha, hb⟩ => hab ⟨hb, ha⟩)

theorem ndu_dropWhile (p : Char → Bool) (l : Str)
    (h : no_double_underscore l = true) :
    no_double_underscore (l.dropWhile p) = true := by
  induction l with
  | nil => rfl
  | cons c rest ih =>
    by_cases hp : p c
    · rw [List.dropWhile_cons_of_pos hp]
      exact ih (ndu_tail c rest h)
    · rw [List.dropWhile_cons_of_neg hp]
      exact h

theorem ndu_strip_underscores (l : Str) (h : no_double_underscore l = true) :
    no_double_underscore (strip_underscores l) = true := by
  unfold strip_underscores
  rw [ndu_reverse]
  apply ndu_dropWhile
  rw [ndu_reverse]
  exact ndu_dropWhile _ _ h

theorem ndu_py_upper (l : Str) (h : no_double_underscore l = true) :
    no_double_underscore (py_upper l) = true := by
  induction l with
  | nil => rfl
  | cons c rest ih =>
    cases rest with
    | nil => rfl
    | cons d t =>
      have hc : no_double_underscore (c :: d :: t)
          = (!(c = '_' && d = '_') && no_double_underscore (d :: t)) := rfl
      rw [hc, Bool.and_eq_true] at h
      have hmap : py_upper (c :: d :: t) = c.toUpper :: py_upper (d :: t) := rfl
      have hmap2 : py_upper (d :: t) = d.toUpper :: py_upper t := rfl
      rw [hmap, hmap2]
      show (!(c.toUpper = '_' && d.toUpper = '_')
          && no_double_underscore (d.toUpper :: py_upper t)) = true
      rw [Bool.and_eq_true]
      constructor
      · have h1 := h.1
        by_cases hcu : c.toUpper = '_'
        · have hcc : c = '_' := (toUpper_eq_underscore_iff c).mp hcu
          have hdd : ¬ d = '_' := by
            intro hdd
            simp [hcc, hdd] at h1
          have hdu : ¬ d.toUpper = '_' := fun hh => hdd ((toUpper_eq_underscore_iff d).mp hh)
          simp [hcu, hdu]
        · simp [hcu]
      · have := ih h.2
        rw [hmap2] at this
        exact this

theorem mem_strip_underscores (l : Str) (c : Char) (h : c ∈ strip_underscores l) : c ∈ l := by
  unfold strip_underscores at h
  rw [List.mem_reverse] at h
  have h2 := List.dropWhile_subset (p := fun c => c = '_') h
  rw [List.mem_reverse] at h2
  exact List.dropWhile_subset _ h2

theorem collapse_all_underscores (l : Str) (hne : l ≠ [])
    (hall : ∀ c ∈ l, c = '_') : collapse_underscores l = ['_'] := by
  induction l with
  | nil => exact absurd rfl hne
  | cons c rest ih =>
    cases rest with
    | nil =>
      have : c = '_' := hall c (List.mem_singleton.mpr rfl)
      rw [this]
      rfl
    | cons d t =>
      have hc : c = '_' := hall c (List.mem_cons_self c _)
      have hd : d = '_' := hall d (List.mem_cons_of_mem c (List.mem_cons_self d _))
      have hstep : collapse_underscores (c :: d :: t) = collapse_underscores (d :: t) := by
        simp only [collapse_underscores]
        rw [if_pos ⟨hc, hd⟩]
      rw [hstep]
      exact ih (by simp) (fun x hx => hall x (List.mem_cons_of_mem c hx))

theorem sanitize_clean_all_allowed (t : Str) (c : Char)
    (hc : c ∈ py_upper (strip_underscores (collapse_underscores (replace_invalid t)))) :
    allowed_char c = true := by
  unfold py_upper at hc
  rcases List.mem_map.mp hc with ⟨a, ha, hac⟩
  have ha2 : a ∈ replace_invalid t :=
    mem_collapse _ a (mem_strip_underscores _ a ha)
  rw [← hac]
  exact allowed_char_toUpper a (mem_replace_invalid_allowed t a ha2)

/-- C8 (amended): in the ReStoryTeller merge engine every dynamic label and
relationship type is passed through `_sanitize_for_cypher`, whose output is
always a non-empty allow-listed identifier (letters/digits/underscore) with
no repeated underscores, and an input with no valid characters falls back to
the generic tag `RELATED_TO` instead of failing. -/
theorem C8_sanitizer_allow_list :
    ∀ t : Str,
      cypher_ident_ok (sanitize_for_cypher t) = true
      ∧ no_double_underscore (sanitize_for_cypher t) = true
      ∧ restory_entity_labels_str t = str ":Entity:" ++ sanitize_for_cypher t
      ∧ restory_rel_type t = sanitize_for_cypher t
      ∧ ((∀ c ∈ t, allowed_char c = false) → sanitize_for_cypher t = str "RELATED_TO") := by
  intro t
  refine ⟨?_, ?_, rfl, rfl, ?_⟩
  · unfold sanitize_for_cypher
    by_cases ht : t = []
    · rw [if_pos ht]
      decide
    · rw [if_neg ht]
      by_cases hcl : py_upper (strip_underscores (collapse_underscores (replace_invalid t))) = []
      · rw [if_pos hcl]
        decide
      · rw [if_neg hcl]
        unfold cypher_ident_ok
        rw [Bool.and_eq_true]
        constructor
        · cases hu : py_upper (strip_underscores (collapse_underscores (replace_invalid t))) with
          | nil => exact absurd hu hcl
          | cons c rest => rfl
        · rw [List.all_eq_true]
          intro c hc
          exact sanitize_clean_all_allowed t c hc
  · unfold sanitize_for_cypher
    by_cases ht : t = []
    · rw [if_pos ht]
      decide
    · rw [if_neg ht]
      by_cases hcl : py_upper (strip_underscores (collapse_underscores (replace_invalid t))) = []
      · rw [if_pos hcl]
        decide
      · rw [if_neg hcl]
        exact ndu_py_upper _ (ndu_strip_underscores _ (ndu_collapse _))
  · intro hall
    unfold sanitize_for_cypher
    by_cases ht : t = []
    · rw [if_pos ht]
    · rw [if_neg ht]
      have hrepl : ∀ c ∈ replace_invalid t, c = '_' := by
        intro c hc
        unfold replace_invalid at hc
        rcases List.mem_map.mp hc with ⟨a, ha, hac⟩
        rw [if_neg (by rw [hall a ha]; exact Bool.false_ne_true)] at hac
        exact hac.symm
      have hrne : replace_invalid t ≠ [] := by
        unfold replace_invalid
        intro hmap
        exact ht (List.map_eq_nil_iff.mp hmap)
      have hcoll : collapse_underscores (replace_invalid t) = ['_'] :=
        collapse_all_underscores _ hrne hrepl
      rw [hcoll]
      rw [show strip_underscores ['_'] = [] from rfl]
      rw [show py_upper [] = [] from rfl]
      rfl

/-- C8 witness: the sanitizer's guarantees instantiated on an input with no
valid characters, exercising the generic-tag fallback. -/
theorem C8_sanitizer_allow_list_witness :
    cypher_ident_ok (sanitize_for_cypher (str "!! ??")) = true
    ∧ sanitize_for_cypher (str "!! ??") = str "RELATED_TO" :=
  ⟨(C8_sanitizer_allow_list (str "!! ??")).1,
   (C8_sanitizer_allow_list (str "!! ??")).2.2.2.2 (by decide)⟩

/-- C8 counterexample: the claim says every value used as a node label in a
generated graph query is validated against the allow-list, but the
BeltaScrapper `execute_graph` entity statement interpolates the raw label:
for the label "a b" the generated query embeds "a b" itself — no allow-listed
identifier can stand in that position. -/
theorem C8_unvalidated_label_cex :
    belta_entity_query (str "a b")
        = belta_entity_query_prefix ++ str "a b" ++ str "`"
    ∧ ¬ ∃ safe : Str, cypher_ident_ok safe = true
        ∧ belta_entity_query (str "a b") = belta_entity_query_prefix ++ safe ++ str "`" := by
  refine ⟨rfl, ?_⟩
  rintro ⟨safe, hok, heq⟩
  unfold belta_entity_query at heq
  rw [List.append_assoc, List.append_assoc] at heq
  have h1 := List.append_cancel_left heq
  have h2 := List.append_cancel_right h1
  rw [← h2] at hok
  exact absurd hok (by decide)

theorem find?_map_fst_preserving (l : List (Str × Option Str))
    (f : Str × Option Str → Str × Option Str) (hf : ∀ p, (f p).1 = p.1) (n : Str) :
    (l.map f).find? (fun p => p.1 = n) = (l.find? (fun p => p.1 = n)).map f := by
  induction l with
  | nil => rfl
  | cons p rest ih =>
    by_cases hp : p.1 = n
    · rw [List.map_cons, List.find?_cons_of_pos _ (by simp [hf, hp]),
        List.find?_cons_of_pos _ (by simp [hp])]
      rfl
    · rw [List.map_cons, List.find?_cons_of_neg _ (by simp [hf, hp]),
        List.find?_cons_of_neg _ (by simp [hp])]
      exact ih

/-- C7 (amended): `add_entity_to_db` is an idempotent insert-if-absent keyed
by the normalized name — adding an already-present name leaves the table
(including its stored description) unchanged, and a (truthy) description is
stored exactly when the row is newly inserted; description backfill for
existing rows happens only through `add_entity_description`, which skips
rows that already carry a description and fills rows whose description is
NULL. -/
theorem C7_add_insert_if_absent :
    ∀ (st : Registry) (name : Str) (d : Option Str) (dd : Str),
      (normalize_name name ∈ st.table.map Prod.fst →
        (add_entity_to_db st name d).table = st.table)
      ∧ (normalize_name name ∉ st.table.map Prod.fst →
        (add_entity_to_db st name d).table
          = st.table ++ [(normalize_name name, if truthy_desc d then d else none)])
      ∧ (∀ e0 d0,
          st.table.find? (fun p => p.1 = normalize_name name) = some (e0, some d0) →
          (add_entity_description st name dd).table = st.table)
      ∧ (∀ e0,
          st.table.find? (fun p => p.1 = normalize_name name) = some (e0, none) →
          desc_of (add_entity_description st name dd) (normalize_name name)
            = some (some dd))
      ∧ (st.table.find? (fun p => p.1 = normalize_name name) = none →
          (add_entity_description st name dd).table = st.table) := by
  intro st name d dd
  refine ⟨?_, ?_, ?_, ?_, ?_⟩
  · intro h
    unfold add_entity_to_db
    dsimp only
    rw [if_pos h]
  · intro h
    unfold add_entity_to_db
    dsimp only
    rw [if_neg h]
  · intro e0 d0 hfind
    unfold add_entity_description
    dsimp only
    rw [hfind]
  · intro e0 hfind
    have he0 : e0 = normalize_name name := by
      have := List.find?_some hfind
      simpa using this
    unfold add_entity_description
    dsimp only
    rw [hfind]
    unfold desc_of
    rw [find?_map_fst_preserving _ _ (by
      intro p
      by_cases hp : p.1 = normalize_name name ∧ (p.2 = none ∨ p.2 = some [])
      · rw [if_pos hp]
      · rw [if_neg hp]) _]
    rw [hfind]
    subst he0
    simp
  · intro hfind
    unfold add_entity_description
    dsimp only
    rw [hfind]
    show st.table.map (fun p =>
        if p.1 = normalize_name name ∧ (p.2 = none ∨ p.2 = some [])
        then (p.1, some dd) else p) = st.table
    have hid : ∀ p ∈ st.table,
        (if p.1 = normalize_name name ∧ (p.2 = none ∨ p.2 = some [])
         then (p.1, some dd) else p) = p := by
      intro p hp
      rw [List.find?_eq_none] at hfind
      have hne : ¬ p.1 = normalize_name name := by
        have := hfind p hp
        simpa using this
      rw [if_neg (fun hc => hne hc.1)]
    rw [List.map_congr_left hid, List.map_id']

/-- C7 witness: the amended behaviour instantiated — a fresh insert stores
the description, a repeated add leaves the row untouched, and
`add_entity_description` backfills a NULL description. -/
theorem C7_add_insert_if_absent_witness :
    (add_entity_to_db ⟨[(str "bob", none)], [str "bob"]⟩ (str "bob")
        (some (str "president"))).table = [(str "bob", none)]
    ∧ (add_entity_to_db ⟨[], []⟩ (str "alice") (some (str "leader"))).table
        = [] ++ [(str "alice", if truthy_desc (some (str "leader")) = true
            then some (str "leader") else none)]
    ∧ desc_of (add_entity_description ⟨[(str "bob", none)], [str "bob"]⟩ (str "bob")
        (str "president")) (str "bob") = some (some (str "president")) :=
  ⟨(C7_add_insert_if_absent ⟨[(str "bob", none)], [str "bob"]⟩ (str "bob")
      (some (str "president")) (str "x")).1 (by decide),
   (C7_add_insert_if_absent ⟨[], []⟩ (str "alice") (some (str "leader"))
      (str "x")).2.1 (by decide),
   (C7_add_insert_if_absent ⟨[(str "bob", none)], [str "bob"]⟩ (str "bob")
      none (str "president")).2.2.2.1 (str "bob") (by decide)⟩

/-- C7 counterexample: the claim says a supplied description is attached
exactly when the entry has no description yet, but after `add("bob")` the
entry has no description and `add("bob", "president")` still attaches
nothing — `INSERT OR IGNORE` skips the whole row. -/
theorem C7_description_not_backfilled_cex :
    (add_entity_to_db ⟨[], []⟩ (str "bob") none).table = [(str "bob", none)]
    ∧ (add_entity_to_db (add_entity_to_db ⟨[], []⟩ (str "bob") none) (str "bob")
        (some (str "president"))).table = [(str "bob", none)] := by
  decide

theorem registry_wf_add (st : Registry) (n : Str) (d : Option Str)
    (h : registry_wf st) : registry_wf (add_entity_to_db st n d) := by
  unfold add_entity_to_db
  dsimp only
  constructor
  · intro m hm
    by_cases hc : normalize_name n ∈ st.cache
    · rw [if_pos hc] at hm
      exact h.1 m hm
    · rw [if_neg hc] at hm
      rcases List.mem_append.mp hm with hm | hm
      · exact h.1 m hm
      · rw [List.mem_singleton.mp hm]
        exact normalize_name_idem n
  · intro m hm
    by_cases ht : normalize_name n ∈ st.table.map Prod.fst
    · rw [if_pos ht] at hm
      exact h.2 m hm
    · rw [if_neg ht, List.map_append] at hm
      rcases List.mem_append.mp hm with hm | hm
      · exact h.2 m hm
      · rw [List.mem_singleton.mp hm]
        exact normalize_name_idem n

theorem add_entity_description_shape (st : Registry) (n : Str) (dd : Str) :
    (add_entity_description st n dd).table.map Prod.fst = st.table.map Prod.fst
    ∧ (add_entity_description st n dd).cache = st.cache := by
  unfold add_entity_description
  dsimp only
  cases hfind : st.table.find? (fun p => p.1 = normalize_name n) with
  | none =>
    refine ⟨?_, rfl⟩
    rw [List.map_map]
    apply List.map_congr_left
    intro p _
    by_cases hp : p.1 = normalize_name n ∧ (p.2 = none ∨ p.2 = some [])
    · rw [Function.comp_apply, if_pos hp]
    · rw [Function.comp_apply, if_neg hp]
  | some p =>
    rcases p with ⟨a, b⟩
    cases b with
    | none =>
      refine ⟨?_, rfl⟩
      rw [List.map_map]
      apply List.map_congr_left
      intro p _
      by_cases hp : p.1 = normalize_name n ∧ (p.2 = none ∨ p.2 = some [])
      · rw [Function.comp_apply, if_pos hp]
      · rw [Function.comp_apply, if_neg hp]
    | some s => exact ⟨rfl, rfl⟩

theorem registry_wf_desc (st : Registry) (n : Str) (dd : Str)
    (h : registry_wf st) : registry_wf (add_entity_description st n dd) := by
  rcases add_entity_description_shape st n dd with ⟨htab, hcache⟩
  constructor
  · intro m hm
    rw [hcache] at hm
    exact h.1 m hm
  · intro m hm
    rw [htab] at hm
    exact h.2 m hm

theorem registry_wf_process (es : List Entity) (st : Registry)
    (h : registry_wf st) : registry_wf (process_entities st es).1 := by
  induction es generalizing st with
  | nil => exact h
  | cons e rest ih =>
    unfold process_entities
    cases truthy_opt (get_similar_entity st.cache e.name default_threshold) with
    | some similar =>
      dsimp only
      by_cases hd : truthy_desc e.description = true
      · rw [if_pos hd]
        exact ih _ (registry_wf_desc st similar (e.description.getD []) h)
      · rw [if_neg hd]
        exact ih _ h
    | none =>
      dsimp only
      exact ih _ (registry_wf_add st e.name e.description h)

/-- C10: every name held in the registry (cache and table) is a fixed point
of `normalize_name`, and every registry operation — reloading the cache,
adding an entity, backfilling a description, resolving a fragment, clearing
— preserves this invariant; consequently the exact-match path of
`get_similar_entity` is sound: a normalized query hitting the cache returns
precisely that stored normalized key. -/
theorem C10_registry_normalized_invariant :
    ∀ (st : Registry) (n : Str) (d : Option Str) (dd q : Str)
      (kg : KnowledgeGraph) (th : ℚ),
      registry_wf st →
      registry_wf (load_cache st)
      ∧ registry_wf (add_entity_to_db st n d)
      ∧ registry_wf (add_entity_description st n dd)
      ∧ registry_wf (normalize_entity_names st kg).1
      ∧ registry_wf (clear_entities_db st)
      ∧ (normalize_name q ∈ st.cache →
          get_similar_entity st.cache q th = some (normalize_name q)
          ∧ normalize_name (normalize_name q) = normalize_name q) := by
  intro st n d dd q kg th h
  refine ⟨⟨?_, h.2⟩, registry_wf_add st n d h, registry_wf_desc st n dd h,
    registry_wf_process kg.entities st h,
    ⟨fun m hm => by simp [clear_entities_db] at hm,
     fun m hm => by simp [clear_entities_db] at hm⟩, ?_⟩
  · intro m hm
    exact h.2 m hm
  · intro hq
    refine ⟨?_, normalize_name_idem q⟩
    unfold get_similar_entity
    rw [if_pos hq]

/-- C10 witness: the invariant instantiated on a well-formed one-entry
registry. -/
theorem C10_registry_normalized_invariant_witness :
    registry_wf (add_entity_to_db ⟨[(str "bob", none)], [str "bob"]⟩ (str "Alice") none)
    ∧ get_similar_entity [str "bob"] (str " BOB ") default_threshold = some (str "bob") := by
  have h := C10_registry_normalized_invariant ⟨[(str "bob", none)], [str "bob"]⟩
    (str "Alice") none (str "x") (str " BOB ") ⟨[], []⟩ default_threshold
    (by constructor <;> (intro m hm; simp at hm; subst hm; decide))
  refine ⟨h.2.1, ?_⟩
  have h2 := (h.2.2.2.2.2 (by decide)).1
  rw [show normalize_name (str " BOB ") = str "bob" from by decide] at h2
  exact h2

theorem similarity_nonneg (a b : Str) : 0 ≤ similarity a b := by
  unfold similarity
  dsimp only
  split_ifs with h
  · norm_num
  · rw [Rat.mkRat_eq_div]
    positivity

theorem similar_loop_mem (nq : Str) (th : ℚ) :
    ∀ (l : List Str) (best : Option Str) (bR : ℚ) (r : Str),
      similar_loop nq th l best bR = some r → r ∈ l ∨ best = some r := by
  intro l
  induction l with
  | nil =>
    intro best bR r h
    exact Or.inr h
  | cons s rest ih =>
    intro best bR r h
    unfold similar_loop at h
    by_cases hs : is_subset_match nq s = true
    · rw [if_pos hs] at h
      injection h with h
      exact Or.inl (List.mem_cons.mpr (Or.inl h.symm))
    · rw [if_neg hs] at h
      dsimp only at h
      by_cases himp : bR < similarity nq s ∧ th ≤ similarity nq s
      · rw [if_pos himp] at h
        rcases ih (some s) (similarity nq s) r h with hmem | hbest
        · exact Or.inl (List.mem_cons_of_mem s hmem)
        · injection hbest with hbest
          exact Or.inl (hbest ▸ List.mem_cons_self s rest)
      · rw [if_neg himp] at h
        rcases ih best bR r h with hmem | hbest
        · exact Or.inl (List.mem_cons_of_mem s hmem)
        · exact Or.inr hbest

theorem gse_mem (cache : List Str) (name : Str) (th : ℚ) (r : Str)
    (h : get_similar_entity cache name th = some r) : r ∈ cache := by
  unfold get_similar_entity at h
  by_cases hin : normalize_name name ∈ cache
  · rw [if_pos hin] at h
    injection h with h
    exact h ▸ hin
  · rw [if_neg hin] at h
    rcases similar_loop_mem (normalize_name name) th cache none 0 r h with hmem | hbest
    · exact hmem
    · exact absurd hbest (by simp)

theorem similar_loop_arg_best (nq : Str) (th : ℚ) :
    ∀ (l : List Str) (best : Option Str) (bR : ℚ),
      (∀ s ∈ l, is_subset_match nq s = false) →
      similar_loop nq th l best bR
        = match arg_best nq th l bR with
          | some b => some b
          | none => best := by
  intro l
  induction l with
  | nil => intro best bR _; rfl
  | cons s rest ih =>
    intro best bR hns
    have hs : is_subset_match nq s = false := hns s (List.mem_cons_self s rest)
    have hrest : ∀ x ∈ rest, is_subset_match nq x = false :=
      fun x hx => hns x (List.mem_cons_of_mem s hx)
    unfold similar_loop arg_best
    rw [if_neg (by rw [hs]; exact Bool.false_ne_true)]
    dsimp only
    by_cases himp : bR < similarity nq s ∧ th ≤ similarity nq s
    · rw [if_pos himp, if_pos himp, ih (some s) (similarity nq s) hrest]
      cases arg_best nq th rest (similarity nq s) with
      | none => rfl
      | some b => rfl
    · rw [if_neg himp, if_neg himp]
      exact ih best bR hrest

theorem arg_best_none (nq : Str) (th : ℚ) :
    ∀ (l : List Str) (bound : ℚ),
      arg_best nq th l bound = none →
      ∀ s ∈ l, similarity nq s < th ∨ similarity nq s ≤ bound := by
  intro l
  induction l with
  | nil => intro bound _ s hs; exact absurd hs (List.not_mem_nil s)
  | cons x rest ih =>
    intro bound h s hs
    unfold arg_best at h
    by_cases himp : bound < similarity nq x ∧ th ≤ similarity nq x
    · rw [if_pos himp] at h
      cases harg : arg_best nq th rest (similarity nq x) with
      | none => rw [harg] at h; exact absurd h (by simp)
      | some b => rw [harg] at h; exact absurd h (by simp)
    · rw [if_neg himp] at h
      rcases List.mem_cons.mp hs with hsx | hsrest
      · subst hsx
        rcases not_and_or.mp himp with h1 | h2
        · right; exact le_of_not_lt h1
        · left; exact lt_of_not_le h2
      · exact ih bound h s hsrest

theorem arg_best_some (nq : Str) (th : ℚ) :
    ∀ (l : List Str) (bound : ℚ) (b : Str),
      arg_best nq th l bound = some b →
      b ∈ l ∧ th ≤ similarity nq b ∧ bound < similarity nq b
      ∧ ∀ s ∈ l, similarity nq s ≤ similarity nq b ∨ similarity nq s < th
          ∨ similarity nq s ≤ bound := by
  intro l
  induction l with
  | nil => intro bound b h; exact absurd h (by simp [arg_best])
  | cons x rest ih =>
    intro bound b h
    unfold arg_best at h
    by_cases himp : bound < similarity nq x ∧ th ≤ similarity nq x
    · rw [if_pos himp] at h
      cases harg : arg_best nq th rest (similarity nq x) with
      | none =>
        rw [harg] at h
        injection h with h
        subst h
        refine ⟨List.mem_cons_self x rest, himp.2, himp.1, ?_⟩
        intro s hs
        rcases List.mem_cons.mp hs with hsx | hsrest
        · subst hsx; left; exact le_refl _
        · rcases arg_best_none nq th rest (similarity nq x) harg s hsrest with h1 | h2
          · right; left; exact h1
          · left; exact h2
      | some b2 =>
        rw [harg] at h
        injection h with h
        subst h
        rcases ih (similarity nq x) b2 harg with ⟨hmem, hth, hgt, hall⟩
        refine ⟨List.mem_cons_of_mem x hmem, hth, lt_trans himp.1 hgt, ?_⟩
        intro s hs
        rcases List.mem_cons.mp hs with hsx | hsrest
        · subst hsx; left; exact le_of_lt hgt
        · rcases hall s hsrest with h1 | h2 | h3
          · left; exact h1
          · right; left; exact h2
          · left; exact le_trans h3 (le_of_lt hgt)
    · rw [if_neg himp] at h
      rcases ih bound b h with ⟨hmem, hth, hgt, hall⟩
      refine ⟨List.mem_cons_of_mem x hmem, hth, hgt, ?_⟩
      intro s hs
      rcases List.mem_cons.mp hs with hsx | hsrest
      · subst hsx
        rcases not_and_or.mp himp with h1 | h2
        · right; right; exact le_of_not_lt h1
        · right; left; exact lt_of_not_le h2
      · exact hall s hsrest

theorem arg_best_split (nq : Str) (th : ℚ) :
    ∀ (l : List Str) (bound : ℚ) (b : Str),
      arg_best nq th l bound = some b →
      ∃ l1 l2, l = l1 ++ b :: l2
        ∧ ∀ s ∈ l1, similarity nq s < th ∨ similarity nq s ≤ bound
            ∨ similarity nq s < similarity nq b := by
  intro l
  induction l with
  | nil => intro bound b h; exact absurd h (by simp [arg_best])
  | cons x rest ih =>
    intro bound b h
    unfold arg_best at h
    by_cases himp : bound < similarity nq x ∧ th ≤ similarity nq x
    · rw [if_pos himp] at h
      cases harg : arg_best nq th rest (similarity nq x) with
      | none =>
        rw [harg] at h
        injection h with h
        subst h
        exact ⟨[], rest, rfl, fun s hs => absurd hs (List.not_mem_nil s)⟩
      | some b2 =>
        rw [harg] at h
        injection h with h
        subst h
        rcases ih (similarity nq x) b2 harg with ⟨l1, l2, hsplit, hl1⟩
        have hgt : similarity nq x < similarity nq b2 :=
          (arg_best_some nq th rest (similarity nq x) b2 harg).2.2.1
        refine ⟨x :: l1, l2, by rw [hsplit]; rfl, ?_⟩
        intro s hs
        rcases List.mem_cons.mp hs with hsx | hsl1
        · subst hsx
          right; right; exact hgt
        · rcases hl1 s hsl1 with h1 | h2 | h3
          · left; exact h1
          · right; right; exact lt_of_le_of_lt h2 hgt
          · right; right; exact h3
    · rw [if_neg himp] at h
      rcases ih bound b h with ⟨l1, l2, hsplit, hl1⟩
      refine ⟨x :: l1, l2, by rw [hsplit]; rfl, ?_⟩
      intro s hs
      rcases List.mem_cons.mp hs with hsx | hsl1
      · subst hsx
        rcases not_and_or.mp himp with h1 | h2
        · right; left; exact le_of_not_lt h1
        · left; exact lt_of_not_le h2
      · exact hl1 s hsl1

theorem similar_loop_subset_find (nq : Str) (th : ℚ) :
    ∀ (l : List Str) (best : Option Str) (bR : ℚ),
      (∃ s ∈ l, is_subset_match nq s = true) →
      similar_loop nq th l best bR = l.find? (fun s => is_subset_match nq s) := by
  intro l
  induction l with
  | nil =>
    intro best bR h
    rcases h with ⟨s, hs, _⟩
    exact absurd hs (List.not_mem_nil s)
  | cons x rest ih =>
    intro best bR h
    unfold similar_loop
    by_cases hx : is_subset_match nq x = true
    · rw [if_pos hx, List.find?_cons_of_pos _ hx]
    · rw [if_neg hx, List.find?_cons_of_neg _ hx]
      have hrest : ∃ s ∈ rest, is_subset_match nq s = true := by
        rcases h with ⟨s, hs, hsm⟩
        rcases List.mem_cons.mp hs with hsx | hsrest
        · subst hsx; exact absurd hsm hx
        · exact ⟨s, hsrest, hsm⟩
      dsimp only
      by_cases himp : bR < similarity nq x ∧ th ≤ similarity nq x
      · rw [if_pos himp]
        exact ih (some x) (similarity nq x) hrest
      · rw [if_neg himp]
        exact ih best bR hrest

/-- C3: `get_similar_entity` honours the priority order: (a) an exact
normalized-key hit is returned; (b) otherwise the first stored name (in
registry order) that token-subset-matches the query is returned, outranking
any fuzzy candidate; (c) otherwise either nothing reaches the threshold and
the result is `none`, or the result is a stored name carrying the maximal
similarity ratio at or above the threshold, every stored name strictly
before it in registry order being below the threshold or of strictly
smaller ratio (first-inserted wins ties). -/
theorem C3_resolve_priority_order :
    ∀ (cache : List Str) (name : Str) (th : ℚ), 0 < th →
      ((normalize_name name ∈ cache →
          get_similar_entity cache name th = some (normalize_name name))
      ∧ (normalize_name name ∉ cache →
          (∃ s ∈ cache, is_subset_match (normalize_name name) s = true) →
          get_similar_entity cache name th
            = cache.find? (fun s => is_subset_match (normalize_name name) s))
      ∧ (normalize_name name ∉ cache →
          (∀ s ∈ cache, is_subset_match (normalize_name name) s = false) →
          ((get_similar_entity cache name th = none
              ∧ ∀ s ∈ cache, similarity (normalize_name name) s < th)
           ∨ ∃ b l1 l2, get_similar_entity cache name th = some b
              ∧ cache = l1 ++ b :: l2
              ∧ th ≤ similarity (normalize_name name) b
              ∧ (∀ s ∈ cache, th ≤ similarity (normalize_name name) s →
                  similarity (normalize_name name) s ≤ similarity (normalize_name name) b)
              ∧ (∀ s ∈ l1, similarity (normalize_name name) s < th
                  ∨ similarity (normalize_name name) s
                      < similarity (normalize_name name) b)))) := by
  intro cache name th hth
  refine ⟨?_, ?_, ?_⟩
  · intro h
    unfold get_similar_entity
    rw [if_pos h]
  · intro hnin hex
    unfold get_similar_entity
    rw [if_neg hnin]
    exact similar_loop_subset_find (normalize_name name) th cache none 0 hex
  · intro hnin hns
    have hloop : get_similar_entity cache name th
        = match arg_best (normalize_name name) th cache 0 with
          | some b => some b
          | none => none := by
      unfold get_similar_entity
      rw [if_neg hnin]
      exact similar_loop_arg_best (normalize_name name) th cache none 0 hns
    cases harg : arg_best (normalize_name name) th cache 0 with
    | none =>
      left
      rw [harg] at hloop
      refine ⟨hloop, ?_⟩
      intro s hs
      rcases arg_best_none (normalize_name name) th cache 0 harg s hs with h1 | h2
      · exact h1
      · calc similarity (normalize_name name) s ≤ 0 := h2
          _ < th := hth
    | some b =>
      right
      rw [harg] at hloop
      rcases arg_best_some (normalize_name name) th cache 0 b harg with
        ⟨hmem, hthb, _, hall⟩
      rcases arg_best_split (normalize_name name) th cache 0 b harg with
        ⟨l1, l2, hsplit, hl1⟩
      refine ⟨b, l1, l2, hloop, hsplit, hthb, ?_, ?_⟩
      · intro s hs hths
        rcases hall s hs with h1 | h2 | h3
        · exact h1
        · exact absurd hths (not_le_of_lt h2)
        · exact absurd hths (not_le_of_lt (lt_of_le_of_lt h3 hth))
      · intro s hsl1
        rcases hl1 s hsl1 with h1 | h2 | h3
        · exact Or.inl h1
        · exact Or.inl (lt_of_le_of_lt h2 hth)
        · exact Or.inr h3

/-- C3 witness: "Putin" resolves against a registry holding
"vladimir putin" through the subset-match branch, which outranks fuzzy
scoring. -/
theorem C3_resolve_priority_order_witness :
    get_similar_entity [str "vladimir putin"] (str "Putin") (mkRat 4 5)
      = some (str "vladimir putin") := by
  have h := (C3_resolve_priority_order [str "vladimir putin"] (str "Putin")
    (mkRat 4 5) (by decide)).2.1 (by decide)
    ⟨str "vladimir putin", by decide, by decide⟩
  rw [h]
  decide

/-- C4 counterexample: with both "lukashenko" and "alexander lukashenko"
registered — and the token-subset and length conditions holding — the two
names resolve to themselves via exact match, not to one shared canonical
key, so the claim as stated ("once either name has been registered,
resolve(A) and resolve(B) return the same canonical key") fails. -/
theorem C4_subset_agreement_cex :
    token_subset (py_split (normalize_name (str "lukashenko")))
        (py_split (normalize_name (str "alexander lukashenko"))) = true
    ∧ 3 < min (normalize_name (str "lukashenko")).length
        (normalize_name (str "alexander lukashenko")).length
    ∧ normalize_name (str "lukashenko")
        ∈ [str "lukashenko", str "alexander lukashenko"]
    ∧ normalize_name (str "alexander lukashenko")
        ∈ [str "lukashenko", str "alexander lukashenko"]
    ∧ get_similar_entity [str "lukashenko", str "alexander lukashenko"]
        (str "lukashenko") default_threshold
      ≠ get_similar_entity [str "lukashenko", str "alexander lukashenko"]
        (str "alexander lukashenko") default_threshold := by
  decide

/-- C4 (amended): under the claim's token-subset and length conditions, when
exactly one of the two names is registered and the registered name is the
first stored name (in registry order) that subset-matches the other, both
names resolve to the registered canonical key. -/
theorem C4_subset_agreement_amended :
    ∀ (cache : List Str) (A B : Str) (th : ℚ),
      token_subset (py_split (normalize_name A)) (py_split (normalize_name B)) = true →
      3 < min (normalize_name A).length (normalize_name B).length →
      ((normalize_name A ∈ cache ∧ normalize_name B ∉ cache ∧
          cache.find? (fun s => is_subset_match (normalize_name B) s)
            = some (normalize_name A)) →
        get_similar_entity cache A th = some (normalize_name A)
        ∧ get_similar_entity cache B th = some (normalize_name A))
      ∧ ((normalize_name B ∈ cache ∧ normalize_name A ∉ cache ∧
          cache.find? (fun s => is_subset_match (normalize_name A) s)
            = some (normalize_name B)) →
        get_similar_entity cache A th = some (normalize_name B)
        ∧ get_similar_entity cache B th = some (normalize_name B)) := by
  intro cache A B th _ _
  constructor
  · rintro ⟨hmemA, hninB, hfind⟩
    constructor
    · unfold get_similar_entity
      rw [if_pos hmemA]
    · unfold get_similar_entity
      rw [if_neg hninB]
      have hex : ∃ s ∈ cache, is_subset_match (normalize_name B) s = true :=
        ⟨normalize_name A, List.mem_of_find?_eq_some hfind, List.find?_some hfind⟩
      rw [similar_loop_subset_find (normalize_name B) th cache none 0 hex]
      exact hfind
  · rintro ⟨hmemB, hninA, hfind⟩
    constructor
    · unfold get_similar_entity
      rw [if_neg hninA]
      have hex : ∃ s ∈ cache, is_subset_match (normalize_name A) s = true :=
        ⟨normalize_name B, List.mem_of_find?_eq_some hfind, List.find?_some hfind⟩
      rw [similar_loop_subset_find (normalize_name A) th cache none 0 hex]
      exact hfind
    · unfold get_similar_entity
      rw [if_pos hmemB]

/-- C4 witness: with only "lukashenko" registered, both "Lukashenko" and
"Alexander Lukashenko" resolve to "lukashenko". -/
theorem C4_subset_agreement_amended_witness :
    get_similar_entity [str "lukashenko"] (str "Lukashenko") default_threshold
        = some (str "lukashenko")
    ∧ get_similar_entity [str "lukashenko"] (str "Alexander Lukashenko")
        default_threshold = some (str "lukashenko") :=
  (C4_subset_agreement_amended [str "lukashenko"] (str "Lukashenko")
    (str "Alexander Lukashenko") default_threshold (by decide) (by decide)).1
    ⟨by decide, by decide, by decide⟩

theorem truthy_opt_some (o : Option Str) (v : Str) (h : truthy_opt o = some v) :
    o = some v := by
  unfold truthy_opt at h
  cases o with
  | none => exact h
  | some s =>
    cases s with
    | nil => exact absurd h (by simp)
    | cons c t => exact h

theorem cache_subset_add (st : Registry) (n : Str) (d : Option Str) :
    st.cache ⊆ (add_entity_to_db st n d).cache := by
  unfold add_entity_to_db
  dsimp only
  by_cases hc : normalize_name n ∈ st.cache
  · rw [if_pos hc]
    exact fun x hx => hx
  · rw [if_neg hc]
    exact List.subset_append_left _ _

theorem mem_cache_add (st : Registry) (n : Str) (d : Option Str) :
    normalize_name n ∈ (add_entity_to_db st n d).cache := by
  unfold add_entity_to_db
  dsimp only
  by_cases hc : normalize_name n ∈ st.cache
  · rw [if_pos hc]
    exact hc
  · rw [if_neg hc]
    exact List.mem_append_right _ (List.mem_singleton.mpr rfl)

theorem cache_eq_desc (st : Registry) (n : Str) (dd : Str) :
    (add_entity_description st n dd).cache = st.cache :=
  (add_entity_description_shape st n dd).2

theorem cache_subset_process (es : List Entity) (st : Registry) :
    st.cache ⊆ (process_entities st es).1.cache := by
  induction es generalizing st with
  | nil => exact fun _ h => h
  | cons e rest ih =>
    unfold process_entities
    cases htr : truthy_opt (get_similar_entity st.cache e.name default_threshold) with
    | some similar =>
      dsimp only
      by_cases hd : truthy_desc e.description = true
      · rw [if_pos hd]
        intro x hx
        apply ih
        rw [cache_eq_desc]
        exact hx
      · rw [if_neg hd]
        exact ih st
    | none =>
      dsimp only
      intro x hx
      exact ih _ (cache_subset_add st e.name e.description hx)

theorem process_entities_keys (es : List Entity) (st : Registry) :
    ((process_entities st es).2).map Prod.fst = es.map Entity.name := by
  induction es generalizing st with
  | nil => rfl
  | cons e rest ih =>
    unfold process_entities
    cases htr : truthy_opt (get_similar_entity st.cache e.name default_threshold) with
    | some similar =>
      dsimp only
      rw [List.map_cons, List.map_cons, ih]
    | none =>
      dsimp only
      rw [List.map_cons, List.map_cons, ih]

theorem process_entities_values (es : List Entity) (st : Registry)
    (h : registry_wf st) :
    ∀ p ∈ (process_entities st es).2,
      p.2 ∈ (process_entities st es).1.cache ∧ normalize_name p.2 = p.2 := by
  induction es generalizing st with
  | nil => intro p hp; exact absurd hp (List.not_mem_nil p)
  | cons e rest ih =>
    intro p hp
    unfold process_entities at hp ⊢
    cases htr : truthy_opt (get_similar_entity st.cache e.name default_threshold) with
    | some similar =>
      rw [htr] at hp
      dsimp only at hp ⊢
      have hsim : similar ∈ st.cache :=
        gse_mem st.cache e.name default_threshold similar (truthy_opt_some _ _ htr)
      rcases List.mem_cons.mp hp with hphead | hptail
      · subst hphead
        refine ⟨?_, h.1 similar hsim⟩
        dsimp only
        by_cases hd : truthy_desc e.description = true
        · rw [if_pos hd]
          apply cache_subset_process
          rw [cache_eq_desc]
          exact hsim
        · rw [if_neg hd]
          exact cache_subset_process rest st hsim
      · by_cases hd : truthy_desc e.description = true
        · rw [if_pos hd] at hptail ⊢
          exact ih _ (registry_wf_desc st similar _ h) p hptail
        · rw [if_neg hd] at hptail ⊢
          exact ih st h p hptail
    | none =>
      rw [htr] at hp
      dsimp only at hp ⊢
      rcases List.mem_cons.mp hp with hphead | hptail
      · subst hphead
        refine ⟨?_, normalize_name_idem e.name⟩
        exact cache_subset_process rest _ (mem_cache_add st e.name e.description)
      · exact ih _ (registry_wf_add st e.name e.description h) p hptail

theorem map_lookup_mem (m : List (Str × Str)) (k v : Str)
    (h : map_lookup m k = some v) : (k, v) ∈ m := by
  unfold map_lookup at h
  cases hfind : m.reverse.find? (fun p => p.1 = k) with
  | none => rw [hfind] at h; exact absurd h (by simp)
  | some p =>
    rw [hfind] at h
    have hp1 : p.1 = k := by
      have := List.find?_some hfind
      simpa using this
    have hpm : p ∈ m := List.mem_reverse.mp (List.mem_of_find?_eq_some hfind)
    have hv : p.2 = v := by
      injection h with h
    rcases p with ⟨p1, p2⟩
    dsimp only at hp1 hv
    rw [← hp1, ← hv]
    exact hpm

theorem map_lookup_isSome_of_key (m : List (Str × Str)) (k : Str)
    (h : k ∈ m.map Prod.fst) : (map_lookup m k).isSome = true := by
  unfold map_lookup
  rcases List.mem_map.mp h with ⟨p, hpm, hpk⟩
  cases hfind : m.reverse.find? (fun q => q.1 = k) with
  | some q => rfl
  | none =>
    rw [List.find?_eq_none] at hfind
    exact absurd (by simpa using hpk) (hfind p (List.mem_reverse.mpr hpm))

theorem map_lookup_self (m : List (Str × Str)) (k : Str)
    (hall : ∀ p ∈ m, p.2 = p.1) (hk : k ∈ m.map Prod.fst) :
    map_lookup m k = some k := by
  cases hlk : map_lookup m k with
  | none =>
    have := map_lookup_isSome_of_key m k hk
    rw [hlk] at this
    exact absurd this (by simp)
  | some v =>
    have hmem := map_lookup_mem m k v hlk
    have := hall (k, v) hmem
    dsimp only at this
    rw [this]

theorem process_entities_id_mapping (es : List Entity) (st : Registry)
    (h : ∀ e ∈ es, normalize_name e.name = e.name ∧ e.name ∈ st.cache) :
    ∀ p ∈ (process_entities st es).2, p.2 = p.1 := by
  induction es generalizing st with
  | nil => intro p hp; exact absurd hp (List.not_mem_nil p)
  | cons e rest ih =>
    intro p hp
    have he := h e (List.mem_cons_self e rest)
    have hgse : get_similar_entity st.cache e.name default_threshold = some e.name := by
      unfold get_similar_entity
      rw [he.1, if_pos he.2]
    unfold process_entities at hp
    rw [hgse] at hp
    have hrest : ∀ x ∈ rest, normalize_name x.name = x.name ∧ x.name ∈ st.cache :=
      fun x hx => h x (List.mem_cons_of_mem e hx)
    cases hen : e.name with
    | nil =>
      rw [hen] at hp
      dsimp only [truthy_opt] at hp
      rcases List.mem_cons.mp hp with hphead | hptail
      · subst hphead
        have h1 := he.1
        rw [hen] at h1
        exact h1
      · refine ih _ ?_ p hptail
        intro x hx
        refine ⟨(hrest x hx).1, ?_⟩
        exact cache_subset_add st [] e.description (hrest x hx).2
    | cons c t =>
      rw [hen] at hp
      dsimp only [truthy_opt] at hp
      rcases List.mem_cons.mp hp with hphead | hptail
      · subst hphead
        rfl
      · refine ih _ ?_ p hptail
        intro x hx
        by_cases hd : truthy_desc e.description = true
        · rw [if_pos hd]
          refine ⟨(hrest x hx).1, ?_⟩
          rw [cache_eq_desc]
          exact (hrest x hx).2
        · rw [if_neg hd]
          exact hrest x hx

theorem apply_mapping_id (m : List (Str × Str)) (kg : KnowledgeGraph)
    (hall : ∀ p ∈ m, p.2 = p.1) :
    apply_mapping m kg = kg := by
  unfold apply_mapping
  have hlk_id : ∀ k : Str, map_lookup m k = none ∨ map_lookup m k = some k := by
    intro k
    cases hlk : map_lookup m k with
    | none => exact Or.inl rfl
    | some v =>
      right
      have hvk := hall (k, v) (map_lookup_mem m k v hlk)
      dsimp only at hvk
      rw [hvk]
  have hents : kg.entities.map (fun e =>
      match map_lookup m e.name with
      | some v => { e with name := v }
      | none => e) = kg.entities := by
    rw [List.map_id'']
    intro e
    rcases hlk_id e.name with hlk | hlk
    · rw [hlk]
    · rw [hlk]
  have hrels : kg.relationships.map (fun r =>
      let r1 := match map_lookup m r.source with
        | some v => { r with source := v }
        | none => r
      match map_lookup m r1.target with
      | some v => { r1 with target := v }
      | none => r1) = kg.relationships := by
    rw [List.map_id'']
    intro r
    have hr1 : (match map_lookup m r.source with
        | some v => { r with source := v }
        | none => r) = r := by
      rcases hlk_id r.source with hlk | hlk
      · rw [hlk]
      · rw [hlk]
    dsimp only
    rw [hr1]
    rcases hlk_id r.target with hlk | hlk
    · rw [hlk]
    · rw [hlk]
  rw [hents, hrels]

theorem frag_names_wf (st : Registry) (kg : KnowledgeGraph) (h : registry_wf st) :
    ∀ e ∈ (normalize_entity_names st kg).2.entities,
      normalize_name e.name = e.name
      ∧ e.name ∈ (normalize_entity_names st kg).1.cache := by
  intro e he
  unfold normalize_entity_names at he ⊢
  dsimp only at he ⊢
  unfold apply_mapping at he
  dsimp only at he
  rcases List.mem_map.mp he with ⟨e0, he0, heq⟩
  have hkey : e0.name ∈ ((process_entities st kg.entities).2).map Prod.fst := by
    rw [process_entities_keys]
    exact List.mem_map.mpr ⟨e0, he0, rfl⟩
  have hsome := map_lookup_isSome_of_key _ _ hkey
  cases hlk : map_lookup (process_entities st kg.entities).2 e0.name with
  | none => rw [hlk] at hsome; exact absurd hsome (by simp)
  | some v =>
    rw [hlk] at heq
    have hmem := map_lookup_mem _ _ _ hlk
    have hval := process_entities_values kg.entities st h (e0.name, v) hmem
    dsimp only at hval
    rw [← heq]
    exact ⟨hval.2, hval.1⟩

theorem has_node_upsert (g : GraphState) (n l : Str) :
    has_node (upsert_entity g n l) n = true := by
  unfold upsert_entity
  by_cases h : has_node g n = true
  · rw [if_pos h]
    exact h
  · rw [if_neg h]
    unfold has_node
    rw [List.any_append]
    simp [List.any_cons]

theorem has_node_upsert_mono (g : GraphState) (n' l' n : Str)
    (h : has_node g n = true) : has_node (upsert_entity g n' l') n = true := by
  unfold upsert_entity
  by_cases h2 : has_node g n' = true
  · rw [if_pos h2]
    exact h
  · rw [if_neg h2]
    unfold has_node at h ⊢
    rw [List.any_append, h]
    rfl

theorem has_node_run_entities_mono (es : List Entity) (g : GraphState) (n : Str)
    (h : has_node g n = true) : has_node (run_entities g es) n = true := by
  induction es generalizing g with
  | nil => exact h
  | cons e0 rest ih =>
    have hrun : run_entities g (e0 :: rest)
        = run_entities (upsert_entity g e0.name e0.label) rest := rfl
    rw [hrun]
    exact ih _ (has_node_upsert_mono g e0.name e0.label n h)

theorem has_node_run_entities (es : List Entity) (g : GraphState) :
    ∀ e ∈ es, has_node (run_entities g es) e.name = true := by
  induction es generalizing g with
  | nil => intro e he; exact absurd he (List.not_mem_nil e)
  | cons e0 rest ih =>
    intro e he
    have hrun : run_entities g (e0 :: rest)
        = run_entities (upsert_entity g e0.name e0.label) rest := rfl
    rw [hrun]
    rcases List.mem_cons.mp he with hh | ht
    · subst hh
      exact has_node_run_entities_mono rest _ e.name (has_node_upsert g e.name e.label)
    · exact ih (upsert_entity g e0.name e0.label) e ht

theorem run_entities_id (es : List Entity) (g : GraphState)
    (h : ∀ e ∈ es, has_node g e.name = true) : run_entities g es = g := by
  induction es with
  | nil => rfl
  | cons e0 rest ih =>
    have hrun : run_entities g (e0 :: rest)
        = run_entities (upsert_entity g e0.name e0.label) rest := rfl
    rw [hrun, upsert_entity_hit g e0.name e0.label (h e0 (List.mem_cons_self e0 rest))]
    exact ih (fun e he => h e (List.mem_cons_of_mem e0 he))

theorem run_relationships_nodes (src : Option Str) (rels : List Relationship)
    (g : GraphState) : (run_relationships src g rels).nodes = g.nodes := by
  induction rels generalizing g with
  | nil => rfl
  | cons r rest ih =>
    have hrun : run_relationships src g (r :: rest)
        = run_relationships src (merge_relationship g r src) rest := rfl
    rw [hrun, ih, merge_relationship_nodes]

theorem has_node_of_nodes_eq {g g' : GraphState} (h : g.nodes = g'.nodes) (n : Str) :
    has_node g n = has_node g' n := by
  unfold has_node
  rw [h]

theorem new_source_files_mem_self (sf : List Str) (s : Str) :
    s ∈ new_source_files sf (some s) := by
  show s ∈ (if s ∈ sf then sf else sf ++ [s])
  by_cases h : s ∈ sf
  · rw [if_pos h]
    exact h
  · rw [if_neg h]
    exact List.mem_append_right _ (List.mem_singleton.mpr rfl)

theorem merge_rel_establishes (g : GraphState) (r : Relationship) (src : Option Str)
    (hep : has_node g r.source = true ∧ has_node g r.target = true) :
    ∃ e, edge_find (merge_relationship g r src) (rel_key r) = some e
      ∧ ∀ s, src = some s → s ∈ e.source_files := by
  cases hfind : g.edges.find? (fun e => e.key = rel_key r) with
  | none =>
    rw [merge_relationship_create g r src hep hfind]
    refine ⟨created_edge r src g.clock, ?_, ?_⟩
    · unfold edge_find
      dsimp only
      rw [List.find?_append, hfind]
      rw [List.find?_cons_of_pos _ (by simp [created_edge])]
      rfl
    · intro s hs
      subst hs
      show s ∈ [s]
      exact List.mem_singleton.mpr rfl
  | some e0 =>
    rw [merge_relationship_matched g r src e0 hep hfind]
    refine ⟨matched_update r src g.clock e0, ?_, ?_⟩
    · unfold edge_find
      dsimp only
      rw [find?_update_first_same g.edges (rel_key r) _ (matched_update_key r src g.clock),
        hfind]
      rfl
    · intro s hs
      subst hs
      exact new_source_files_mem_self e0.source_files s

theorem merge_rel_preserves_ok (g : GraphState) (r' : Relationship) (src : Option Str)
    (k : EdgeKey)
    (h : ∃ e, edge_find g k = some e ∧ ∀ s, src = some s → s ∈ e.source_files) :
    ∃ e', edge_find (merge_relationship g r' src) k = some e'
      ∧ ∀ s, src = some s → s ∈ e'.source_files := by
  rcases h with ⟨e, hfind, hsf⟩
  by_cases hep : has_node g r'.source = true ∧ has_node g r'.target = true
  · cases hfind' : g.edges.find? (fun x => x.key = rel_key r') with
    | none =>
      rw [merge_relationship_create g r' src hep hfind']
      refine ⟨e, ?_, hsf⟩
      unfold edge_find at hfind ⊢
      dsimp only
      rw [List.find?_append, hfind]
      rfl
    | some e0 =>
      rw [merge_relationship_matched g r' src e0 hep hfind']
      by_cases hk : k = rel_key r'
      · subst hk
        have he0 : e0 = e := by
          unfold edge_find at hfind
          rw [hfind'] at hfind
          exact Option.some.inj hfind
        subst he0
        refine ⟨matched_update r' src g.clock e0, ?_, ?_⟩
        · unfold edge_find
          dsimp only
          rw [find?_update_first_same g.edges (rel_key r') _
            (matched_update_key r' src g.clock), hfind']
          rfl
        · intro s hs
          subst hs
          show s ∈ new_source_files e0.source_files (some s)
          exact new_source_files_mem_self e0.source_files s
      · refine ⟨e, ?_, hsf⟩
        unfold edge_find
        dsimp only
        rw [find?_update_first_ne g.edges (rel_key r') k _
          (matched_update_key r' src g.clock) hk]
        exact hfind
  · rw [merge_relationship_missing g r' src hep]
    exact ⟨e, hfind, hsf⟩

theorem run_rels_preserves_ok (src : Option Str) (rels : List Relationship)
    (g : GraphState) (k : EdgeKey)
    (h : ∃ e, edge_find g k = some e ∧ ∀ s, src = some s → s ∈ e.source_files) :
    ∃ e', edge_find (run_relationships src g rels) k = some e'
      ∧ ∀ s, src = some s → s ∈ e'.source_files := by
  induction rels generalizing g with
  | nil => exact h
  | cons r rest ih =>
    have hrun : run_relationships src g (r :: rest)
        = run_relationships src (merge_relationship g r src) rest := rfl
    rw [hrun]
    exact ih _ (merge_rel_preserves_ok g r src k h)

theorem run_rels_establishes (src : Option Str) (rels : List Relationship)
    (g : GraphState) :
    ∀ r ∈ rels, (has_node g r.source = true ∧ has_node g r.target = true) →
      ∃ e, edge_find (run_relationships src g rels) (rel_key r) = some e
        ∧ ∀ s, src = some s → s ∈ e.source_files := by
  induction rels generalizing g with
  | nil => intro r hr; exact absurd hr (List.not_mem_nil r)
  | cons r0 rest ih =>
    intro r hr hep
    have hrun : run_relationships src g (r0 :: rest)
        = run_relationships src (merge_relationship g r0 src) rest := rfl
    rw [hrun]
    rcases List.mem_cons.mp hr with hh | ht
    · subst hh
      exact run_rels_preserves_ok src rest _ (rel_key r)
        (merge_rel_establishes g r src hep)
    · apply ih (merge_relationship g r0 src) r ht
      have hn := merge_relationship_nodes g r0 src
      rw [has_node_of_nodes_eq hn r.source, has_node_of_nodes_eq hn r.target]
      exact hep

theorem map_update_first_proj (l : List GraphEdge) (k : EdgeKey)
    (f : GraphEdge → GraphEdge) (e : GraphEdge)
    (hfk : ∀ x, (f x).key = x.key)
    (hfound : l.find? (fun x => x.key = k) = some e)
    (hsf : (f e).source_files = e.source_files) :
    (update_first_edge l k f).map (fun x => (x.key, x.source_files))
      = l.map (fun x => (x.key, x.source_files)) := by
  induction l with
  | nil => rfl
  | cons x rest ih =>
    by_cases hx : x.key = k
    · have hex : x = e := by
        rw [List.find?_cons_of_pos _ (by simp [hx])] at hfound
        exact Option.some.inj hfound
      subst hex
      unfold update_first_edge
      rw [if_pos hx, List.map_cons, List.map_cons, hfk, hsf]
    · have hfound' : rest.find? (fun y => y.key = k) = some e := by
        rw [List.find?_cons_of_neg _ (by simp [hx])] at hfound
        exact hfound
      unfold update_first_edge
      rw [if_neg hx, List.map_cons, List.map_cons, ih hfound']

theorem merge_rel_proj (g : GraphState) (r : Relationship) (src : Option Str)
    (hok : (has_node g r.source = true ∧ has_node g r.target = true) →
      ∃ e, edge_find g (rel_key r) = some e
        ∧ ∀ s, src = some s → s ∈ e.source_files) :
    (merge_relationship g r src).edges.map (fun x => (x.key, x.source_files))
      = g.edges.map (fun x => (x.key, x.source_files)) := by
  by_cases hep : has_node g r.source = true ∧ has_node g r.target = true
  · rcases hok hep with ⟨e, hfind, hsf⟩
    unfold edge_find at hfind
    rw [merge_relationship_matched g r src e hep hfind]
    apply map_update_first_proj g.edges (rel_key r) _ e
      (matched_update_key r src g.clock) hfind
    show new_source_files e.source_files src = e.source_files
    cases src with
    | none => rfl
    | some s =>
      show (if s ∈ e.source_files then e.source_files else e.source_files ++ [s])
        = e.source_files
      rw [if_pos (hsf s rfl)]
  · rw [merge_relationship_missing g r src hep]

theorem run_rels_proj (src : Option Str) (rels : List Relationship) (g : GraphState)
    (hP : ∀ r ∈ rels, (has_node g r.source = true ∧ has_node g r.target = true) →
      ∃ e, edge_find g (rel_key r) = some e
        ∧ ∀ s, src = some s → s ∈ e.source_files) :
    (run_relationships src g rels).edges.map (fun x => (x.key, x.source_files))
      = g.edges.map (fun x => (x.key, x.source_files)) := by
  induction rels generalizing g with
  | nil => rfl
  | cons r0 rest ih =>
    have hrun : run_relationships src g (r0 :: rest)
        = run_relationships src (merge_relationship g r0 src) rest := rfl
    rw [hrun]
    have hstep := merge_rel_proj g r0 src (hP r0 (List.mem_cons_self r0 rest))
    rw [ih (merge_relationship g r0 src) ?_, hstep]
    intro r hr hep
    have hn := merge_relationship_nodes g r0 src
    rw [has_node_of_nodes_eq hn r.source, has_node_of_nodes_eq hn r.target] at hep
    exact merge_rel_preserves_ok g r0 src (rel_key r) (hP r (List.mem_cons_of_mem r0 hr) hep)

/-- C1: merging the same fragment twice is idempotent.  Starting from a
well-formed registry, running `execute_graph` again on the result of a first
merge (same source id, and the fragment object as mutated by the first pass)
leaves the node list, the edge keys and every edge's `source_files` list —
hence its length — exactly as after the first merge: the repeat merge adds
no duplicate node, edge, or provenance entry. -/
theorem C1_merge_idempotent :
    ∀ (st : Registry) (g : GraphState) (kg : KnowledgeGraph) (src : Option Str),
      registry_wf st →
      (execute_graph (execute_graph st g kg src).registry
          (execute_graph st g kg src).graph (execute_graph st g kg src).frag src).graph.nodes
        = (execute_graph st g kg src).graph.nodes
      ∧ (execute_graph (execute_graph st g kg src).registry
          (execute_graph st g kg src).graph (execute_graph st g kg src).frag src).graph.edges.map
            GraphEdge.key
        = (execute_graph st g kg src).graph.edges.map GraphEdge.key
      ∧ (execute_graph (execute_graph st g kg src).registry
          (execute_graph st g kg src).graph (execute_graph st g kg src).frag src).graph.edges.map
            (fun e => (e.key, e.source_files.length))
        = (execute_graph st g kg src).graph.edges.map
            (fun e => (e.key, e.source_files.length)) := by
  intro st g kg src hwf
  have hreg : (execute_graph st g kg src).registry = (normalize_entity_names st kg).1 := rfl
  have hfragr : (execute_graph st g kg src).frag = (normalize_entity_names st kg).2 := rfl
  have hgr : (execute_graph st g kg src).graph
      = run_relationships src
          (run_entities g (normalize_entity_names st kg).2.entities)
          (normalize_entity_names st kg).2.relationships := rfl
  -- the fragment after the first pass: canonical names, present in the cache
  have hfrag := frag_names_wf st kg hwf
  -- the second normalization is the identity on the fragment
  have hall : ∀ p ∈ (process_entities (normalize_entity_names st kg).1
      (normalize_entity_names st kg).2.entities).2, p.2 = p.1 :=
    process_entities_id_mapping _ _ (fun e he => ⟨(hfrag e he).1, (hfrag e he).2⟩)
  have hkg2 : (normalize_entity_names (normalize_entity_names st kg).1
      (normalize_entity_names st kg).2).2 = (normalize_entity_names st kg).2 := by
    show apply_mapping _ _ = _
    exact apply_mapping_id _ _ hall
  have hsecond : (execute_graph (normalize_entity_names st kg).1
      (run_relationships src (run_entities g (normalize_entity_names st kg).2.entities)
        (normalize_entity_names st kg).2.relationships)
      (normalize_entity_names st kg).2 src).graph
      = run_relationships src
          (run_entities
            (run_relationships src (run_entities g (normalize_entity_names st kg).2.entities)
              (normalize_entity_names st kg).2.relationships)
            (normalize_entity_names st kg).2.entities)
          (normalize_entity_names st kg).2.relationships := by
    show run_relationships src
        (run_entities _ (normalize_entity_names (normalize_entity_names st kg).1
          (normalize_entity_names st kg).2).2.entities)
        (normalize_entity_names (normalize_entity_names st kg).1
          (normalize_entity_names st kg).2).2.relationships = _
    rw [hkg2]
  -- abbreviations by equations
  have hg2nodes : (run_relationships src
      (run_entities g (normalize_entity_names st kg).2.entities)
      (normalize_entity_names st kg).2.relationships).nodes
      = (run_entities g (normalize_entity_names st kg).2.entities).nodes :=
    run_relationships_nodes src _ _
  -- second entity phase is a no-op
  have hge : run_entities
      (run_relationships src (run_entities g (normalize_entity_names st kg).2.entities)
        (normalize_entity_names st kg).2.relationships)
      (normalize_entity_names st kg).2.entities
      = run_relationships src (run_entities g (normalize_entity_names st kg).2.entities)
          (normalize_entity_names st kg).2.relationships := by
    apply run_entities_id
    intro e he
    rw [has_node_of_nodes_eq hg2nodes e.name]
    exact has_node_run_entities _ g e he
  -- every relationship with live endpoints already owns its edge with the
  -- source id recorded
  have hP : ∀ r ∈ (normalize_entity_names st kg).2.relationships,
      (has_node (run_relationships src
          (run_entities g (normalize_entity_names st kg).2.entities)
          (normalize_entity_names st kg).2.relationships) r.source = true
        ∧ has_node (run_relationships src
          (run_entities g (normalize_entity_names st kg).2.entities)
          (normalize_entity_names st kg).2.relationships) r.target = true) →
      ∃ e, edge_find (run_relationships src
          (run_entities g (normalize_entity_names st kg).2.entities)
          (normalize_entity_names st kg).2.relationships) (rel_key r) = some e
        ∧ ∀ s, src = some s → s ∈ e.source_files := by
    intro r hr hep
    rw [has_node_of_nodes_eq hg2nodes r.source,
      has_node_of_nodes_eq hg2nodes r.target] at hep
    exact run_rels_establishes src _ _ r hr hep
  have hproj := run_rels_proj src (normalize_entity_names st kg).2.relationships
    (run_relationships src (run_entities g (normalize_entity_names st kg).2.entities)
      (normalize_entity_names st kg).2.relationships) hP
  rw [hreg, hfragr, hgr, hsecond, hge]
  refine ⟨run_relationships_nodes src _ _, ?_, ?_⟩
  · have h1 : ∀ l : List GraphEdge, l.map GraphEdge.key
        = (l.map (fun x => (x.key, x.source_files))).map Prod.fst := by
      intro l
      rw [List.map_map]
      rfl
    rw [h1, h1, hproj]
  · have h2 : ∀ l : List GraphEdge, l.map (fun e => (e.key, e.source_files.length))
        = (l.map (fun x => (x.key, x.source_files))).map (fun p => (p.1, p.2.length)) := by
      intro l
      rw [List.map_map]
      rfl
    rw [h2, h2, hproj]

/-- C1 witness: the double-merge idempotence instantiated on the
specification's scenario — two entities and one HELD_POSITION relationship
merged from "doc1" into an empty store with an empty registry. -/
theorem C1_merge_idempotent_witness :
    (execute_graph
        (execute_graph ⟨[], []⟩ ⟨[], [], 0⟩
          ⟨[⟨str "vladimir putin", str "Person", none⟩,
            ⟨str "prime minister", str "Role", none⟩],
           [⟨str "vladimir putin", str "prime minister", str "HELD_POSITION",
             [(str "date", str "2008-05-08")]⟩]⟩ (some (str "doc1"))).registry
        (execute_graph ⟨[], []⟩ ⟨[], [], 0⟩
          ⟨[⟨str "vladimir putin", str "Person", none⟩,
            ⟨str "prime minister", str "Role", none⟩],
           [⟨str "vladimir putin", str "prime minister", str "HELD_POSITION",
             [(str "date", str "2008-05-08")]⟩]⟩ (some (str "doc1"))).graph
        (execute_graph ⟨[], []⟩ ⟨[], [], 0⟩
          ⟨[⟨str "vladimir putin", str "Person", none⟩,
            ⟨str "prime minister", str "Role", none⟩],
           [⟨str "vladimir putin", str "prime minister", str "HELD_POSITION",
             [(str "date", str "2008-05-08")]⟩]⟩ (some (str "doc1"))).frag
        (some (str "doc1"))).graph.nodes
      = (execute_graph ⟨[], []⟩ ⟨[], [], 0⟩
          ⟨[⟨str "vladimir putin", str "Person", none⟩,
            ⟨str "prime minister", str "Role", none⟩],
           [⟨str "vladimir putin", str "prime minister", str "HELD_POSITION",
             [(str "date", str "2008-05-08")]⟩]⟩ (some (str "doc1"))).graph.nodes :=
  (C1_merge_idempotent ⟨[], []⟩ ⟨[], [], 0⟩
    ⟨[⟨str "vladimir putin", str "Person", none⟩,
      ⟨str "prime minister", str "Role", none⟩],
     [⟨str "vladimir putin", str "prime minister", str "HELD_POSITION",
       [(str "date", str "2008-05-08")]⟩]⟩ (some (str "doc1"))
    ⟨fun n hn => absurd hn (List.not_mem_nil n),
     fun n hn => absurd hn (List.not_mem_nil n)⟩).1

set_option maxRecDepth 40000 in
example :
    ((execute_graph ⟨[], []⟩ ⟨[], [], 0⟩
      ⟨[⟨str "vladimir putin", str "Person", none⟩,
        ⟨str "prime minister", str "Role", none⟩],
       [⟨str "vladimir putin", str "prime minister", str "HELD_POSITION",
         [(str "date", str "2008-05-08")]⟩]⟩ (some (str "doc1"))).graph.nodes.length = 2)
    ∧ ((execute_graph ⟨[], []⟩ ⟨[], [], 0⟩
      ⟨[⟨str "vladimir putin", str "Person", none⟩,
        ⟨str "prime minister", str "Role", none⟩],
       [⟨str "vladimir putin", str "prime minister", str "HELD_POSITION",
         [(str "date", str "2008-05-08")]⟩]⟩ (some (str "doc1"))).graph.edges.map
        (fun e => (e.key, e.source_files)))
      = [(⟨str "vladimir putin", str "HELD_POSITION", str "prime minister"⟩,
          [str "doc1"])] := by
  decide
